import Mathlib

/-!
A shallow embedding of `matrix.go`.

The Go package `matrix` defines a generic dense row-major matrix
`Matrix[T]` (fields `Rows`, `Columns`, `Data`) together with `New`,
`Identity`, `At`, `Set`, `Scale`, `Len`, `DotProduct`, `MustAdd` and
`MustMul`.

Modelling decisions:

* The Go type `int` is the 64-bit signed integer of the common platforms: a value is
  an `Int`, and every `+` and `*` on it is followed by `wrapInt`.
* The element type `T` ranges over the integer members of the `numeric`
  constraint (`Kind`); a value of `T` is an `Int` and arithmetic in `T` is
  followed by `Kind.wrap` (wrap-around, signed for the signed kinds).  The two
  floating-point members are outside this development.
* A slice is a `List Int`; reading or writing outside `0 ≤ i < len` is a
  run-time panic.
* The expression `make([]T, n)` fails when `n` is negative or exceeds the
  largest length that the runtime allocates for the element type: at most
  what the size check of the runtime admits (on the 64-bit platforms
  `n * sizeof(T) ≤ 2^48` bytes) and what memory allows.  That bound belongs
  to the runtime and not to this package, so it is a parameter `limit` of
  every function that allocates, and every theorem holds for every `limit`.
  The operands of a method exist, and a length that has been allocated is
  taken as one that can be allocated again: in a method the bound is at
  least the lengths of the slices of its operands (`limitWith`).
* The floating-point step of `Len` is a parameter of `Matrix.Len`; for a
  non-negative integer it is modelled by `sqrtTrunc`, the correctly rounded
  double-precision square root followed by truncation.
* A panic is an `Except.error`; a function that mutates its receiver
  (`Set`) returns the new value of the receiver.
-/

namespace GoMatrix

/-! ## Panics -/

/-- The ways in which the code can panic: the two run-time errors raised by
the slice primitives and the five explicit `panic(...)` calls. -/
inductive Panic where
  /-- Run-time error of `make([]T, n)` with an `n` that is negative or beyond
  the allocation limit (`makeslice: len out of range`). -/
  | makesliceLen
  /-- Run-time error of `s[i]` with `i` outside `0 ≤ i < len(s)`. -/
  | indexOutOfRange
  /-- Explicit `panic("matrix indexes out of bounds")`. -/
  | indexesOutOfBounds
  /-- Explicit `panic("matrix size for len must have 1 column")`. -/
  | lenColumns
  /-- Explicit `panic("matrix sizes for dot product must have 1 column")`. -/
  | dotColumns
  /-- Explicit `panic("matrix sizes are incompatible for addition")`. -/
  | addSizes
  /-- Explicit `panic("matrix sizes are incompatible for multiplication")`. -/
  | mulSizes
deriving DecidableEq, Repr

/-- A computation that returns a value or panics. -/
abbrev Result (α : Type) : Type := Except Panic α

instance {α : Type} [DecidableEq α] : DecidableEq (Result α)
  | .ok a, .ok b => if h : a = b then isTrue (by rw [h]) else isFalse (fun h' => h (by cases h'; rfl))
  | .error a, .error b => if h : a = b then isTrue (by rw [h]) else isFalse (fun h' => h (by cases h'; rfl))
  | .ok _, .error _ => isFalse (fun h => by cases h)
  | .error _, .ok _ => isFalse (fun h => by cases h)

/-- Whether a computation returned. -/
def Result.isOk {α : Type} : Result α → Bool
  | .ok _ => true
  | .error _ => false

/-! ## The machine integer `int` -/

/-- Largest value of the Go type `int`. -/
def maxInt : Int := 2 ^ 63 - 1

/-- Smallest value of the Go type `int`. -/
def minInt : Int := -(2 ^ 63)

/-- Wrap-around reduction of a mathematical integer into the signed 64-bit
range of `int`. -/
def wrapInt (x : Int) : Int := (x + 2 ^ 63) % 2 ^ 64 - 2 ^ 63

/-- The Go expression `a * b` at type `int`. -/
def imul (a b : Int) : Int := wrapInt (a * b)

/-- The Go expression `a + b` at type `int`. -/
def iadd (a b : Int) : Int := wrapInt (a + b)

/-- The values of type `int`. -/
def IsInt (x : Int) : Prop := minInt ≤ x ∧ x ≤ maxInt

instance (x : Int) : Decidable (IsInt x) := by unfold IsInt; infer_instance

/-! ## The element type `T` -/

/-- The integer members of the constraint `numeric`. -/
inductive Kind where
  | int | int8 | int16 | int32 | int64
  | uint | uint8 | uint16 | uint32 | uint64
deriving DecidableEq, Repr

/-- Width in bits of an element type. -/
def Kind.bits : Kind → Nat
  | .int => 64 | .int8 => 8 | .int16 => 16 | .int32 => 32 | .int64 => 64
  | .uint => 64 | .uint8 => 8 | .uint16 => 16 | .uint32 => 32 | .uint64 => 64

/-- Whether an element type is signed. -/
def Kind.signed : Kind → Bool
  | .int | .int8 | .int16 | .int32 | .int64 => true
  | .uint | .uint8 | .uint16 | .uint32 | .uint64 => false

/-- Reduction of a mathematical integer into the element type: modulo
`2 ^ bits`, into `[-2^(bits-1), 2^(bits-1))` when signed and into
`[0, 2^bits)` when unsigned. -/
def Kind.wrap (k : Kind) (x : Int) : Int :=
  if k.signed then (x + 2 ^ (k.bits - 1)) % 2 ^ k.bits - 2 ^ (k.bits - 1)
  else x % 2 ^ k.bits

/-- The Go expression `a + b` at type `T`. -/
def Kind.add (k : Kind) (a b : Int) : Int := k.wrap (a + b)

/-- The Go expression `a * b` at type `T`. -/
def Kind.mul (k : Kind) (a b : Int) : Int := k.wrap (a * b)

/-- The values of the element type. -/
def Kind.InRange (k : Kind) (x : Int) : Prop := k.wrap x = x

instance (k : Kind) (x : Int) : Decidable (k.InRange x) := by
  unfold Kind.InRange; infer_instance

/-! ## Slices -/

/-- The Go expression `len(s)`. -/
def len (d : List Int) : Int := (d.length : Int)

/-- The Go expression `make([]T, n)`: `n` zeros.  It fails (the run-time
panic `makeslice: len out of range`) when `n` is negative or exceeds `limit`,
the largest length that the runtime allocates for the element type: at most
what its size check admits (on the 64-bit platforms `n * sizeof(T)` may not
exceed `2^48` bytes) and what memory allows. -/
def make (limit n : Int) : Result (List Int) :=
  if n < 0 ∨ limit < n then .error .makesliceLen else .ok (List.replicate n.toNat 0)

/-- The allocation limit in the presence of the slice `d`: the slice exists, so
the runtime has allocated its length, and the limit is at least that. -/
def limitWith (limit : Int) (d : List Int) : Int := max limit (len d)

/-- The Go expression `s[i]` as a value. -/
def index (d : List Int) (i : Int) : Result Int :=
  if i < 0 ∨ len d ≤ i then .error .indexOutOfRange else .ok (d.getD i.toNat 0)

/-- The Go statement `s[i] = v`. -/
def store (d : List Int) (i : Int) (v : Int) : Result (List Int) :=
  if i < 0 ∨ len d ≤ i then .error .indexOutOfRange else .ok (d.set i.toNat v)

/-! ## Loops -/

/-- The remaining iterations of a counting loop: `fuel` is the number of
iterations still to run and `i` the current value of the counter. -/
def forLoopFrom {σ : Type} (body : Int → σ → Result σ) : Nat → Int → σ → Result σ
  | 0, _, s => .ok s
  | fuel + 1, i, s =>
    match body i s with
    | .error e => .error e
    | .ok s' => forLoopFrom body fuel (i + 1) s'

/-- The Go statement `for i := 0; i < n; i++ { body }` for a bound `n` that the body does
not change.  The counter stays below `n`, so `i++` never wraps. -/
def forLoop {σ : Type} (n : Int) (body : Int → σ → Result σ) (s : σ) : Result σ :=
  forLoopFrom body n.toNat 0 s

/-- The remaining iterations of a loop over a slice: the elements still to
visit and the index of the first of them. -/
def rangeLoopFrom {σ : Type} (body : Int → Int → σ → Result σ) :
    List Int → Int → σ → Result σ
  | [], _, s => .ok s
  | v :: vs, i, s =>
    match body i v s with
    | .error e => .error e
    | .ok s' => rangeLoopFrom body vs (i + 1) s'

/-- The Go statement `for i, v := range d { body }`. -/
def rangeLoop {σ : Type} (d : List Int) (body : Int → Int → σ → Result σ) (s : σ) :
    Result σ :=
  rangeLoopFrom body d 0 s

/-! ## The matrix type and its operations -/

/-- The struct `Matrix[T]`. -/
structure Matrix where
  Rows : Int
  Columns : Int
  Data : List Int
deriving DecidableEq, Repr

/-- The function `New[T](rows, columns, data...)`. -/
def New (limit : Int) (rows columns : Int) (data : List Int) : Result Matrix := do
  let d ← make limit (imul rows columns)
  let n := imul rows columns
  let n := if n > len data then len data else n
  let d ← forLoop n (fun i d => do
    let v ← index data i
    store d i v) d
  pure { Rows := rows, Columns := columns, Data := d }

/-- The function `Identity[T](size)`; `T(1)` is `1` in every element type. -/
def Identity (limit : Int) (size : Int) : Result Matrix := do
  let m ← New limit size size []
  let d ← forLoop size (fun i d => store d (iadd (imul i size) i) 1) m.Data
  pure { m with Data := d }

/-- The method `m.At(row, column)`. -/
def Matrix.At (m : Matrix) (row column : Int) : Result Int :=
  if row < 0 ∨ column < 0 ∨ row ≥ m.Rows ∨ column ≥ m.Columns then
    .error .indexesOutOfBounds
  else index m.Data (iadd (imul row m.Columns) column)

/-- The method `m.Set(row, column, value)`; the result is the receiver after the call. -/
def Matrix.Set (m : Matrix) (row column : Int) (value : Int) : Result Matrix :=
  if row < 0 ∨ column < 0 ∨ row ≥ m.Rows ∨ column ≥ m.Columns then
    .error .indexesOutOfBounds
  else do
    let d ← store m.Data (iadd (imul row m.Columns) column) value
    pure { m with Data := d }

/-- The method `m.Scale(s)`. -/
def Matrix.Scale (k : Kind) (limit : Int) (m : Matrix) (s : Int) : Result Matrix := do
  let d ← make (limitWith limit m.Data) (len m.Data)
  let d ← rangeLoop m.Data (fun i v d => store d i (k.mul v s)) d
  pure { Rows := m.Rows, Columns := m.Columns, Data := d }

/-- The method `m.Len()`.  The floating-point step `T(math.Sqrt(float64(s)))`
is the parameter `conv`; `sqrtTrunc` is its model for a non-negative sum. -/
def Matrix.Len (k : Kind) (conv : Int → Int) (m : Matrix) : Result Int :=
  if m.Columns ≠ 1 then .error .lenColumns
  else do
    let s ← rangeLoop m.Data (fun _ v s => pure (k.add s (k.mul v v))) 0
    pure (conv s)

/-- The method `m.DotProduct(m2)`. -/
def Matrix.DotProduct (k : Kind) (m m2 : Matrix) : Result Int :=
  if m.Columns ≠ 1 ∨ m2.Columns ≠ 1 then .error .dotColumns
  else rangeLoop m.Data (fun i v s => do
    let w ← index m2.Data i
    pure (k.add s (k.mul v w))) 0

/-- The method `m.MustAdd(m2)`. -/
def Matrix.MustAdd (k : Kind) (limit : Int) (m m2 : Matrix) : Result Matrix :=
  if m.Rows ≠ m2.Rows ∨ m.Columns ≠ m2.Columns then .error .addSizes
  else do
    let ma ← New (limitWith (limitWith limit m.Data) m2.Data) m.Rows m2.Columns []
    let d ← rangeLoop m.Data (fun i v d => do
      let w ← index m2.Data i
      store d i (k.add v w)) ma.Data
    pure { ma with Data := d }

/-- The method `m.MustMul(m2)`. -/
def Matrix.MustMul (k : Kind) (limit : Int) (m m2 : Matrix) : Result Matrix :=
  if m.Columns ≠ m2.Rows then .error .mulSizes
  else do
    let ma ← New (limitWith (limitWith limit m.Data) m2.Data) m.Rows m2.Columns []
    forLoop m.Rows (fun i ma =>
      forLoop m2.Columns (fun j ma => do
        let s ← forLoop m.Columns (fun n s => do
          let a ← m.At i n
          let b ← m2.At n j
          pure (k.add s (k.mul a b))) 0
        ma.Set i j s) ma) ma

/-! ## Predicates of the specification -/

/-- The well-formedness predicate of the specification. -/
def Matrix.WF (m : Matrix) : Prop :=
  0 ≤ m.Rows ∧ 0 ≤ m.Columns ∧ len m.Data = m.Rows * m.Columns

instance (m : Matrix) : Decidable m.WF := by unfold Matrix.WF; infer_instance

/-- What the Go types guarantee of a `*Matrix[T]` whatever `T` is: the
dimensions and the length of the slice are values of `int`. -/
def Matrix.IsValue (m : Matrix) : Prop :=
  IsInt m.Rows ∧ IsInt m.Columns ∧ len m.Data ≤ maxInt

instance (m : Matrix) : Decidable m.IsValue := by unfold Matrix.IsValue; infer_instance

/-- What the Go types guarantee of the elements of a `*Matrix[T]`: each is a
value of `T`. -/
def Matrix.Typed (k : Kind) (m : Matrix) : Prop :=
  ∀ x ∈ m.Data, k.InRange x

instance (k : Kind) (m : Matrix) : Decidable (m.Typed k) := by
  unfold Matrix.Typed; infer_instance

/-- The index condition under which `At` and `Set` panic. -/
def Matrix.OutOfBounds (m : Matrix) (row column : Int) : Prop :=
  row < 0 ∨ column < 0 ∨ row ≥ m.Rows ∨ column ≥ m.Columns

instance (m : Matrix) (row column : Int) : Decidable (m.OutOfBounds row column) := by
  unfold Matrix.OutOfBounds; infer_instance

/-- The element of the slice that row-major addressing assigns to a position. -/
def Matrix.elem (m : Matrix) (row column : Int) : Int :=
  m.Data.getD (row * m.Columns + column).toNat 0

/-- The sum `f 0 + f 1 + ... + f (n - 1)` accumulated in the element type, as
`s := T(0); s += f(0); ...; s += f(n-1)` computes it. -/
def sumT (k : Kind) (f : Int → Int) : Nat → Int
  | 0 => 0
  | n + 1 => k.add (sumT k f n) (f n)

/-- The mathematical sum `f 0 + f 1 + ... + f (n - 1)`. -/
def sumTo (f : Int → Int) : Nat → Int
  | 0 => 0
  | n + 1 => sumTo f n + f n

/-! ## The floating-point step of `Len` -/

/-- The largest `r` with `r * r ≤ n`, found bit by bit from bit `i - 1` down:
`r` is the part found so far. -/
def isqrtFrom (n : Nat) : Nat → Nat → Nat
  | 0, r => r
  | i + 1, r =>
    if (r + 2 ^ i) * (r + 2 ^ i) ≤ n then isqrtFrom n i (r + 2 ^ i) else isqrtFrom n i r

/-- The integer square root `⌊√n⌋` of an `n < 2^160`. -/
def isqrt (n : Nat) : Nat := isqrtFrom n 80 0

/-- The search for the binary exponent of a square root: the least `t`, at
most `t + fuel`, with `2^104 ≤ s * 4^t`. -/
def sqrtShiftFrom (s : Nat) : Nat → Nat → Nat
  | 0, t => t
  | fuel + 1, t => if 2 ^ 104 ≤ s * 4 ^ t then t else sqrtShiftFrom s fuel (t + 1)

/-- For `0 < s < 2^104` the `t` with `2^52 ≤ √s * 2^t < 2^53`: the square root
of `s` as a double has a 53-bit significand over `2^t`. -/
def sqrtShift (s : Nat) : Nat := sqrtShiftFrom s 52 0

/-- The significand of `math.Sqrt(float64(s))` over `2 ^ sqrtShift s`, for an
`s` that `float64` represents exactly: IEEE 754 requires the square root to
be correctly rounded, so it is the integer nearest to `√(s * 4^t)`, that is
`⌊√(s * 4^t)⌋` rounded up exactly when the remainder exceeds it (a tie cannot
occur, `r * r + r + 1/4` is not an integer). -/
def sqrtSignificand (s : Nat) : Nat :=
  let n := s * 4 ^ sqrtShift s
  let r := isqrt n
  if r * r + r < n then r + 1 else r

/-- The Go expression `T(math.Sqrt(float64(s)))` for an integer element type
and an `s ≥ 0` that `float64` represents exactly: the correctly rounded
double-precision square root, truncated by the conversion to `T`.  For a
negative `s` the square root is not a number and Go leaves the conversion to
the implementation; the model gives `0` there. -/
def sqrtTrunc (s : Int) : Int :=
  if s ≤ 0 then 0
  else ((sqrtSignificand s.toNat / 2 ^ sqrtShift s.toNat : Nat) : Int)

/-- The mathematical sum of the squares of the elements of a matrix. -/
def Matrix.sumSquares (m : Matrix) : Int :=
  sumTo (fun i => m.Data.getD i.toNat 0 * m.Data.getD i.toNat 0) m.Data.length

/-- The integers that `float64` represents exactly: a significand below `2^53`
times a power of two. -/
def ExactDouble (s : Int) : Prop := ∃ m e : Nat, m < 2 ^ 53 ∧ s = (m : Int) * 2 ^ e

/-- The entry of the product at a position, accumulated in the element type
over the inner dimension. -/
def Matrix.mulEntry (k : Kind) (m m2 : Matrix) (i j : Int) : Int :=
  sumT k (fun n => k.mul (m.elem i n) (m2.elem n j)) m.Columns.toNat

/-- The invariant of the two outer loops of `MustMul`: the result keeps its
shape and length, and every position whose row-major address is below `p`
holds its entry of the product. -/
def MulInv (k : Kind) (m m2 : Matrix) (p : Int) (ma : Matrix) : Prop :=
  ma.Rows = m.Rows ∧ ma.Columns = m2.Columns ∧ len ma.Data = m.Rows * m2.Columns ∧
    ∀ r c : Int, 0 ≤ r → 0 ≤ c → c < m2.Columns → r * m2.Columns + c < p →
      ma.elem r c = m.mulEntry k m2 r c

/-! ## Basic facts: results, machine integers, slices -/

@[simp] theorem bind_ok {α β : Type} (a : α) (f : α → Result β) :
    (Except.ok a >>= f) = f a := rfl

@[simp] theorem bind_error {α β : Type} (e : Panic) (f : α → Result β) :
    ((Except.error e : Result α) >>= f) = Except.error e := rfl

@[simp] theorem pure_eq_ok {α : Type} (a : α) : (pure a : Result α) = Except.ok a := rfl

@[simp] theorem isOk_ok {α : Type} (a : α) : Result.isOk (Except.ok a : Result α) = true := rfl

@[simp] theorem isOk_error {α : Type} (e : Panic) :
    Result.isOk (Except.error e : Result α) = false := rfl

theorem isOk_iff {α : Type} (r : Result α) : r.isOk = true ↔ ∃ a, r = .ok a := by
  cases r <;> simp [Result.isOk]

theorem wrapInt_eq {x : Int} (h : IsInt x) : wrapInt x = x := by
  unfold IsInt minInt maxInt at h
  unfold wrapInt
  omega

theorem wrapInt_isInt (x : Int) : IsInt (wrapInt x) := by
  unfold IsInt minInt maxInt wrapInt
  omega

theorem isInt_of_bounds {x : Int} (h0 : 0 ≤ x) (h1 : x ≤ maxInt) : IsInt x := by
  unfold IsInt minInt
  unfold maxInt at *
  omega

theorem imul_eq {a b : Int} (h : IsInt (a * b)) : imul a b = a * b := wrapInt_eq h

theorem iadd_eq {a b : Int} (h : IsInt (a + b)) : iadd a b = a + b := wrapInt_eq h

theorem len_nonneg (d : List Int) : 0 ≤ len d := by unfold len; omega

theorem make_ok {limit n : Int} (h : 0 ≤ n) (hl : n ≤ limit) :
    make limit n = .ok (List.replicate n.toNat 0) := by
  unfold make; rw [if_neg (by omega)]

theorem make_error {limit n : Int} (h : n < 0 ∨ limit < n) :
    make limit n = .error .makesliceLen := by
  unfold make; rw [if_pos h]

theorem le_limitWith {limit x : Int} (d : List Int) (h : x ≤ limit) :
    x ≤ limitWith limit d := by
  unfold limitWith; omega

theorem len_le_limitWith (limit : Int) (d : List Int) : len d ≤ limitWith limit d := by
  unfold limitWith; omega

theorem limitWith_le {limit b : Int} (d : List Int) (h : limit ≤ b) (hd : len d ≤ b) :
    limitWith limit d ≤ b := by
  unfold limitWith; omega

theorem index_ok {d : List Int} {i : Int} (h0 : 0 ≤ i) (h1 : i < len d) :
    index d i = .ok (d.getD i.toNat 0) := by
  unfold index; rw [if_neg (by omega)]

theorem index_error {d : List Int} {i : Int} (h : i < 0 ∨ len d ≤ i) :
    index d i = .error .indexOutOfRange := by
  unfold index; rw [if_pos h]

theorem store_ok {d : List Int} {i : Int} (v : Int) (h0 : 0 ≤ i) (h1 : i < len d) :
    store d i v = .ok (d.set i.toNat v) := by
  unfold store; rw [if_neg (by omega)]

theorem store_error {d : List Int} {i : Int} (v : Int) (h : i < 0 ∨ len d ≤ i) :
    store d i v = .error .indexOutOfRange := by
  unfold store; rw [if_pos h]

theorem store_ok_iff {d d' : List Int} {i v : Int} :
    store d i v = .ok d' ↔ (0 ≤ i ∧ i < len d) ∧ d' = d.set i.toNat v := by
  unfold store
  by_cases h : i < 0 ∨ len d ≤ i
  · rw [if_pos h]; constructor
    · intro h'; cases h'
    · rintro ⟨h', _⟩; omega
  · rw [if_neg h]; constructor
    · intro h'; injection h' with h'; exact ⟨by omega, h'.symm⟩
    · rintro ⟨_, h'⟩; rw [h']

theorem getD_set (d : List Int) (j i : Nat) (v : Int) :
    (d.set j v).getD i 0 = if i = j ∧ j < d.length then v else d.getD i 0 := by
  simp only [List.getD_eq_getElem?_getD, List.getElem?_set]
  by_cases h : j = i
  · subst h
    by_cases h2 : j < d.length
    · simp [h2]
    · simp [h2, List.getElem?_eq_none (not_lt.mp h2)]
  · have : ¬ (i = j ∧ j < d.length) := fun h' => h h'.1.symm
    simp [h, this]

theorem getD_replicate (n i : Nat) : (List.replicate n (0 : Int)).getD i 0 = 0 := by
  simp only [List.getD_eq_getElem?_getD, List.getElem?_replicate]
  split <;> rfl

theorem ext_getD {d e : List Int} (hl : d.length = e.length)
    (h : ∀ i, i < d.length → d.getD i 0 = e.getD i 0) : d = e := by
  apply List.ext_getElem hl
  intro i h1 h2
  have := h i h1
  simpa [List.getD_eq_getElem?_getD, List.getElem?_eq_getElem h1,
    List.getElem?_eq_getElem h2] using this

theorem getD_mem {d : List Int} {i : Nat} (h : i < d.length) : d.getD i 0 ∈ d := by
  rw [List.getD_eq_getElem?_getD, List.getElem?_eq_getElem h]
  exact List.getElem_mem h

/-! ## Loop rules -/

/-- Total correctness of a counting loop: an invariant that every iteration
re-establishes without panicking holds when the loop returns, and it returns. -/
theorem forLoopFrom_total {σ : Type} (body : Int → σ → Result σ) (Inv : Int → σ → Prop) :
    ∀ (fuel : Nat) (i : Int) (s : σ), Inv i s →
      (∀ j t, i ≤ j → j < i + fuel → Inv j t → ∃ t', body j t = .ok t' ∧ Inv (j + 1) t') →
      ∃ s', forLoopFrom body fuel i s = .ok s' ∧ Inv (i + fuel) s' := by
  intro fuel
  induction fuel with
  | zero => intro i s h _; exact ⟨s, rfl, by simpa using h⟩
  | succ n ih =>
    intro i s h hstep
    obtain ⟨t', hb, hinv⟩ := hstep i s (le_refl _) (by push_cast; omega) h
    obtain ⟨s', hs', hfin⟩ := ih (i + 1) t' hinv (by
      intro j t h1 h2 h3
      exact hstep j t (by omega) (by push_cast; omega) h3)
    refine ⟨s', ?_, ?_⟩
    · simp only [forLoopFrom, hb]; exact hs'
    · have : i + ((n + 1 : Nat) : Int) = i + 1 + (n : Int) := by push_cast; ring
      rw [this]; exact hfin

/-- Partial correctness of a counting loop: an invariant that every returning
iteration re-establishes holds whenever the loop returns. -/
theorem forLoopFrom_inv_of_ok {σ : Type} (body : Int → σ → Result σ) (Inv : Int → σ → Prop) :
    ∀ (fuel : Nat) (i : Int) (s s' : σ), Inv i s →
      (∀ j t t', i ≤ j → j < i + fuel → Inv j t → body j t = .ok t' → Inv (j + 1) t') →
      forLoopFrom body fuel i s = .ok s' → Inv (i + fuel) s' := by
  intro fuel
  induction fuel with
  | zero =>
    intro i s s' h _ hrun
    simp only [forLoopFrom] at hrun
    injection hrun with hrun
    subst hrun
    simpa using h
  | succ n ih =>
    intro i s s' h hstep hrun
    simp only [forLoopFrom] at hrun
    cases hb : body i s with
    | error e => rw [hb] at hrun; cases hrun
    | ok t' =>
      rw [hb] at hrun
      have hinv := hstep i s t' (le_refl _) (by push_cast; omega) h hb
      have := ih (i + 1) t' s' hinv (by
        intro j t t'' h1 h2 h3 h4
        exact hstep j t t'' (by omega) (by push_cast; omega) h3 h4) hrun
      have e : i + ((n + 1 : Nat) : Int) = i + 1 + (n : Int) := by push_cast; ring
      rw [e]; exact this

/-- Two bodies that agree on the iterations that are run give the same loop. -/
theorem forLoopFrom_congr {σ : Type} (body body' : Int → σ → Result σ) :
    ∀ (fuel : Nat) (i : Int) (s : σ),
      (∀ j t, i ≤ j → j < i + fuel → body j t = body' j t) →
      forLoopFrom body fuel i s = forLoopFrom body' fuel i s := by
  intro fuel
  induction fuel with
  | zero => intro i s _; rfl
  | succ n ih =>
    intro i s h
    simp only [forLoopFrom]
    rw [h i s (le_refl _) (by push_cast; omega)]
    cases body' i s with
    | error e => rfl
    | ok t =>
      exact ih (i + 1) t (fun j t h1 h2 => h j t (by omega) (by push_cast; omega))

theorem forLoop_total {σ : Type} (n : Int) (body : Int → σ → Result σ)
    (Inv : Int → σ → Prop) (s : σ) (hn : 0 ≤ n) (h0 : Inv 0 s)
    (hstep : ∀ j t, 0 ≤ j → j < n → Inv j t → ∃ t', body j t = .ok t' ∧ Inv (j + 1) t') :
    ∃ s', forLoop n body s = .ok s' ∧ Inv n s' := by
  have := forLoopFrom_total body Inv n.toNat 0 s h0 (by
    intro j t h1 h2 h3
    exact hstep j t h1 (by omega) h3)
  have e : (0 : Int) + (n.toNat : Int) = n := by omega
  rw [e] at this
  exact this

theorem forLoop_inv_of_ok {σ : Type} (n : Int) (body : Int → σ → Result σ)
    (Inv : Int → σ → Prop) (s s' : σ) (hn : 0 ≤ n) (h0 : Inv 0 s)
    (hstep : ∀ j t t', 0 ≤ j → j < n → Inv j t → body j t = .ok t' → Inv (j + 1) t')
    (hrun : forLoop n body s = .ok s') : Inv n s' := by
  have := forLoopFrom_inv_of_ok body Inv n.toNat 0 s s' h0 (by
    intro j t t' h1 h2 h3 h4
    exact hstep j t t' h1 (by omega) h3 h4) hrun
  have e : (0 : Int) + (n.toNat : Int) = n := by omega
  rw [e] at this
  exact this

theorem forLoop_nonpos {σ : Type} (n : Int) (body : Int → σ → Result σ) (s : σ)
    (hn : n ≤ 0) : forLoop n body s = .ok s := by
  unfold forLoop
  have : n.toNat = 0 := by omega
  rw [this]; rfl

theorem forLoop_congr {σ : Type} (n : Int) (body body' : Int → σ → Result σ) (s : σ)
    (h : ∀ j t, 0 ≤ j → j < n → body j t = body' j t) :
    forLoop n body s = forLoop n body' s := by
  unfold forLoop
  exact forLoopFrom_congr body body' n.toNat 0 s (fun j t h1 h2 => h j t h1 (by omega))

/-- A loop over a slice is the counting loop over its indices that reads the
element at each index. -/
theorem rangeLoopFrom_eq {σ : Type} (body : Int → Int → σ → Result σ) :
    ∀ (vs : List Int) (i : Int) (s : σ),
      rangeLoopFrom body vs i s
        = forLoopFrom (fun j t => body j (vs.getD (j - i).toNat 0) t) vs.length i s := by
  intro vs
  induction vs with
  | nil => intro i s; rfl
  | cons v vs ih =>
    intro i s
    simp only [rangeLoopFrom, List.length_cons, forLoopFrom]
    have e0 : (i - i).toNat = 0 := by omega
    rw [e0]
    simp only [List.getD_cons_zero]
    cases body i v s with
    | error e => rfl
    | ok t =>
      simp only []
      rw [ih (i + 1) t]
      apply forLoopFrom_congr
      intro j t' h1 h2
      have e1 : (j - i).toNat = (j - (i + 1)).toNat + 1 := by omega
      rw [e1, List.getD_cons_succ]

theorem rangeLoop_eq {σ : Type} (d : List Int) (body : Int → Int → σ → Result σ) (s : σ) :
    rangeLoop d body s = forLoop (len d) (fun j t => body j (d.getD j.toNat 0) t) s := by
  unfold rangeLoop forLoop len
  rw [rangeLoopFrom_eq]
  simp

/-! ## `New` -/

/-- The loop of `New` copies the first `n` values. -/
theorem New_loop (data d : List Int) (n : Int) (h0 : 0 ≤ n) (hn : n ≤ len data)
    (hd : n ≤ len d) (hz : ∀ i : Nat, d.getD i 0 = 0) :
    ∃ d', forLoop n (fun i d => do
        let v ← index data i
        store d i v) d = .ok d' ∧ d'.length = d.length ∧
      ∀ i : Nat, d'.getD i 0 = if (i : Int) < n then data.getD i 0 else 0 := by
  have := forLoop_total n (fun i d => do
        let v ← index data i
        store d i v)
    (fun j t => t.length = d.length ∧
      ∀ i : Nat, t.getD i 0 = if (i : Int) < j then data.getD i 0 else 0) d h0
    ⟨rfl, fun i => by rw [hz i]; split <;> [omega; rfl]⟩
    (by
      intro j t hj0 hjn ⟨hl, hv⟩
      have hlt : j < len t := by unfold len at *; omega
      refine ⟨t.set j.toNat (data.getD j.toNat 0), ?_, ?_, ?_⟩
      · dsimp only
        rw [index_ok hj0 (by omega)]
        simp only [bind_ok]
        exact store_ok _ hj0 hlt
      · simp [hl]
      · intro i
        rw [getD_set, hv i]
        unfold len at hlt
        by_cases hi : i = j.toNat
        · subst hi
          rw [if_pos ⟨rfl, by omega⟩, if_pos (by omega)]
        · rw [if_neg (fun h => hi h.1)]
          by_cases h2 : (i : Int) < j
          · rw [if_pos h2, if_pos (by omega)]
          · rw [if_neg h2, if_neg (by omega)])
  exact this

/-- When the product of the dimensions is a non-negative value of `int`
within the allocation limit, `New` returns, and the result has the given
shape, `rows * columns` elements and the supplied values followed by zeros. -/
theorem New_ok (limit rows columns : Int) (data : List Int)
    (h0 : 0 ≤ rows * columns) (h1 : rows * columns ≤ maxInt)
    (h2 : rows * columns ≤ limit) :
    ∃ d, New limit rows columns data = .ok ⟨rows, columns, d⟩ ∧ len d = rows * columns ∧
      ∀ i : Nat, d.getD i 0
        = if (i : Int) < rows * columns ∧ i < data.length then data.getD i 0 else 0 := by
  unfold New
  rw [imul_eq (isInt_of_bounds h0 h1), make_ok h0 h2]
  simp only [bind_ok, pure_eq_ok, gt_iff_lt]
  have hlen : ((List.replicate (rows * columns).toNat (0 : Int)).length : Int)
      = rows * columns := by simp; omega
  obtain ⟨d', hrun, hl, hv⟩ := New_loop data (List.replicate (rows * columns).toNat 0)
    (if len data < rows * columns then len data else rows * columns)
    (by split <;> [exact len_nonneg _; exact h0])
    (by split <;> omega)
    (by unfold len; rw [hlen]; split <;> omega)
    (fun i => getD_replicate _ i)
  refine ⟨d', ?_, ?_, ?_⟩
  · rw [hrun]; rfl
  · unfold len; rw [hl]; exact hlen
  · intro i
    rw [hv i]
    unfold len
    by_cases hc : (data.length : Int) < rows * columns
    · rw [if_pos hc]
      by_cases hi : i < data.length
      · rw [if_pos (by omega), if_pos ⟨by omega, hi⟩]
      · rw [if_neg (by omega), if_neg (fun h => hi h.2)]
    · rw [if_neg hc]
      by_cases hi : (i : Int) < rows * columns
      · rw [if_pos hi, if_pos ⟨hi, by omega⟩]
      · rw [if_neg hi, if_neg (fun h => hi h.1)]

/-- Whenever `New` returns, the result has the given shape and as many
elements as the wrapped product of the dimensions. -/
theorem New_shape (limit rows columns : Int) (data : List Int) (m : Matrix)
    (h : New limit rows columns data = .ok m) :
    m.Rows = rows ∧ m.Columns = columns ∧ len m.Data = imul rows columns
      ∧ 0 ≤ imul rows columns ∧ imul rows columns ≤ limit := by
  unfold New at h
  by_cases hneg : imul rows columns < 0 ∨ limit < imul rows columns
  · rw [make_error hneg] at h; cases h
  · have hnn : 0 ≤ imul rows columns := by omega
    have hle : imul rows columns ≤ limit := by omega
    rw [make_ok hnn hle] at h
    simp only [bind_ok, pure_eq_ok, gt_iff_lt] at h
    generalize hN : (if len data < imul rows columns then len data else imul rows columns) = n at h
    cases hrun : forLoop n (fun i d => do
        let v ← index data i
        store d i v) (List.replicate (imul rows columns).toNat 0) with
    | error e => rw [hrun] at h; cases h
    | ok d' =>
      rw [hrun] at h
      simp only [bind_ok] at h
      injection h with h
      subst h
      have hn0 : 0 ≤ n := by
        rw [← hN]; split <;> [exact len_nonneg _; exact hnn]
      have := forLoop_inv_of_ok n _ (fun _ t => t.length = (imul rows columns).toNat) _ d' hn0
        (by simp) (by
          intro j t t' _ _ hl hb
          cases hi : index data j with
          | error e => rw [hi] at hb; cases hb
          | ok v =>
            rw [hi] at hb
            simp only [bind_ok] at hb
            rw [store_ok_iff] at hb
            rw [hb.2]; simpa using hl) hrun
      refine ⟨rfl, rfl, ?_, hnn, hle⟩
      unfold len
      show ((d'.length : Nat) : Int) = _
      rw [this]; omega

/-- With no initial values `New` returns the zero slice whenever the wrapped
product of the dimensions is not negative and within the allocation limit. -/
theorem New_nil (limit rows columns : Int) (h : 0 ≤ imul rows columns)
    (hl : imul rows columns ≤ limit) :
    New limit rows columns []
      = .ok ⟨rows, columns, List.replicate (imul rows columns).toNat 0⟩ := by
  unfold New
  rw [make_ok h hl]
  simp only [bind_ok, pure_eq_ok, gt_iff_lt]
  have hn : (if len ([] : List Int) < imul rows columns then len ([] : List Int)
      else imul rows columns) ≤ 0 := by
    have : len ([] : List Int) = 0 := rfl
    split <;> omega
  rw [forLoop_nonpos _ _ _ hn]
  rfl

/-- The function `New` panics in `make` when the wrapped product of the
dimensions is negative or beyond the allocation limit. -/
theorem New_neg (limit rows columns : Int) (data : List Int)
    (h : imul rows columns < 0 ∨ limit < imul rows columns) :
    New limit rows columns data = .error .makesliceLen := by
  unfold New
  rw [make_error h]
  rfl

/-! ## Row-major addressing, `At` and `Set` -/

theorem lin_nonneg {r c C : Int} (hr : 0 ≤ r) (hc : 0 ≤ c) (hC : c < C) : 0 ≤ r * C + c := by
  have : 0 ≤ r * C := Int.mul_nonneg hr (by omega)
  omega

theorem lin_lt {r c R C : Int} (hr : r < R) (hc : 0 ≤ c) (hC : c < C) :
    r * C + c < R * C := by
  have h1 : (r + 1) * C ≤ R * C := Int.mul_le_mul_of_nonneg_right (by omega) (by omega)
  have h2 : (r + 1) * C = r * C + C := by ring
  omega

theorem lin_inj {r c r' c' C : Int} (hc : 0 ≤ c) (hC : c < C) (hc' : 0 ≤ c') (hC' : c' < C)
    (h : r * C + c = r' * C + c') : r = r' ∧ c = c' := by
  have hr : r = r' := by
    by_contra hne
    rcases lt_or_gt_of_ne hne with hlt | hgt
    · have h1 : (r + 1) * C ≤ r' * C := Int.mul_le_mul_of_nonneg_right (by omega) (by omega)
      have h2 : (r + 1) * C = r * C + C := by ring
      omega
    · have h1 : (r' + 1) * C ≤ r * C := Int.mul_le_mul_of_nonneg_right (by omega) (by omega)
      have h2 : (r' + 1) * C = r' * C + C := by ring
      omega
  subst hr
  exact ⟨rfl, by omega⟩

/-- For a matrix whose slice has `Rows * Columns` elements, the address that
`At` and `Set` compute for an in-bounds position is the mathematical
`row * Columns + column` and is a position of the slice. -/
theorem linear_index (m : Matrix) (row column : Int)
    (hwf : len m.Data = m.Rows * m.Columns) (hlen : len m.Data ≤ maxInt)
    (hin : ¬ m.OutOfBounds row column) :
    iadd (imul row m.Columns) column = row * m.Columns + column
      ∧ 0 ≤ row * m.Columns + column ∧ row * m.Columns + column < len m.Data := by
  unfold Matrix.OutOfBounds at hin
  have hr0 : 0 ≤ row := by omega
  have hc0 : 0 ≤ column := by omega
  have hrR : row < m.Rows := by omega
  have hcC : column < m.Columns := by omega
  have h1 := lin_nonneg hr0 hc0 hcC
  have h2 := lin_lt hrR hc0 hcC
  have h3 : 0 ≤ row * m.Columns := Int.mul_nonneg hr0 (by omega)
  have e1 : imul row m.Columns = row * m.Columns :=
    imul_eq (isInt_of_bounds h3 (by omega))
  unfold iadd
  rw [e1, wrapInt_eq (isInt_of_bounds h1 (by omega))]
  exact ⟨rfl, h1, by omega⟩

theorem At_error (m : Matrix) (row column : Int) (h : m.OutOfBounds row column) :
    m.At row column = .error .indexesOutOfBounds := by
  unfold Matrix.OutOfBounds at h
  unfold Matrix.At; rw [if_pos h]

theorem Set_error (m : Matrix) (row column v : Int) (h : m.OutOfBounds row column) :
    m.Set row column v = .error .indexesOutOfBounds := by
  unfold Matrix.OutOfBounds at h
  unfold Matrix.Set; rw [if_pos h]

theorem At_ok (m : Matrix) (row column : Int)
    (hwf : len m.Data = m.Rows * m.Columns) (hlen : len m.Data ≤ maxInt)
    (hin : ¬ m.OutOfBounds row column) :
    m.At row column = .ok (m.elem row column) := by
  obtain ⟨e, h0, h1⟩ := linear_index m row column hwf hlen hin
  unfold Matrix.OutOfBounds at hin
  unfold Matrix.At
  rw [if_neg hin, e, index_ok h0 h1]
  rfl

theorem Set_ok (m : Matrix) (row column v : Int)
    (hwf : len m.Data = m.Rows * m.Columns) (hlen : len m.Data ≤ maxInt)
    (hin : ¬ m.OutOfBounds row column) :
    m.Set row column v
      = .ok { m with Data := m.Data.set (row * m.Columns + column).toNat v } := by
  obtain ⟨e, h0, h1⟩ := linear_index m row column hwf hlen hin
  unfold Matrix.OutOfBounds at hin
  unfold Matrix.Set
  rw [if_neg hin, e, store_ok v h0 h1]
  rfl

/-- Whenever `Set` returns, only the slice has changed, and its length has
not. -/
theorem Set_shape (m m' : Matrix) (row column v : Int) (h : m.Set row column v = .ok m') :
    m'.Rows = m.Rows ∧ m'.Columns = m.Columns ∧ m'.Data.length = m.Data.length
      ∧ ¬ m.OutOfBounds row column
      ∧ 0 ≤ iadd (imul row m.Columns) column
      ∧ iadd (imul row m.Columns) column < len m.Data := by
  unfold Matrix.Set at h
  by_cases hb : m.OutOfBounds row column
  · unfold Matrix.OutOfBounds at hb
    rw [if_pos hb] at h; cases h
  · have hb' := hb
    unfold Matrix.OutOfBounds at hb'
    rw [if_neg hb'] at h
    cases hs : store m.Data (iadd (imul row m.Columns) column) v with
    | error e => rw [hs] at h; cases h
    | ok d =>
      rw [hs] at h
      simp only [bind_ok, pure_eq_ok] at h
      injection h with h
      subst h
      rw [store_ok_iff] at hs
      refine ⟨rfl, rfl, ?_, hb, hs.1.1, hs.1.2⟩
      rw [hs.2]; simp

/-! ## `Identity` -/

/-- The loop of `Identity` writes `1` at the diagonal positions. -/
theorem Identity_loop (size : Int) (d : List Int) (h0 : 0 ≤ size)
    (hl : len d = size * size) (hmax : size * size ≤ maxInt)
    (hz : ∀ i : Nat, d.getD i 0 = 0) :
    ∃ d', forLoop size (fun i d => store d (iadd (imul i size) i) 1) d = .ok d'
      ∧ len d' = size * size
      ∧ ∀ r c : Int, 0 ≤ r → r < size → 0 ≤ c → c < size →
          d'.getD (r * size + c).toNat 0 = if r = c then 1 else 0 := by
  have := forLoop_total size (fun i d => store d (iadd (imul i size) i) 1)
    (fun j t => len t = size * size ∧
      ∀ r c : Int, 0 ≤ r → r < size → 0 ≤ c → c < size →
        t.getD (r * size + c).toNat 0 = if r = c ∧ r < j then 1 else 0) d h0
    ⟨hl, fun r c hr _ _ _ => by rw [hz, if_neg (by omega)]⟩
    (by
      intro j t hj0 hjn ⟨hlt, hv⟩
      have h1 := lin_nonneg hj0 hj0 hjn
      have h2 : j * size + j < size * size := lin_lt hjn hj0 hjn
      have h3 : 0 ≤ j * size := Int.mul_nonneg hj0 h0
      have e1 : imul j size = j * size := imul_eq (isInt_of_bounds h3 (by omega))
      have e2 : iadd (imul j size) j = j * size + j := by
        unfold iadd; rw [e1, wrapInt_eq (isInt_of_bounds h1 (by omega))]
      refine ⟨t.set (j * size + j).toNat 1, ?_, ?_, ?_⟩
      · dsimp only
        rw [e2]
        exact store_ok _ h1 (by omega)
      · unfold len at *; simpa using hlt
      · intro r c hr0 hrn hc0 hcn
        rw [getD_set, hv r c hr0 hrn hc0 hcn]
        have hrc := lin_nonneg hr0 hc0 hcn
        by_cases he : r * size + c = j * size + j
        · obtain ⟨e3, e4⟩ := lin_inj hc0 hcn hj0 hjn he
          subst e3; subst e4
          unfold len at hlt
          rw [if_pos ⟨rfl, by omega⟩, if_pos ⟨rfl, by omega⟩]
        · rw [if_neg (fun h => he (by have := h.1; omega))]
          by_cases h4 : r = c ∧ r < j
          · rw [if_pos h4, if_pos ⟨h4.1, by omega⟩]
          · rw [if_neg h4, if_neg]
            rintro ⟨h5, h6⟩
            apply h4
            refine ⟨h5, ?_⟩
            have : r ≠ j := by
              rintro rfl
              exact he (by rw [← h5])
            omega)
  obtain ⟨d', hrun, hl', hv⟩ := this
  refine ⟨d', hrun, hl', ?_⟩
  intro r c hr0 hrn hc0 hcn
  rw [hv r c hr0 hrn hc0 hcn]
  by_cases h : r = c
  · rw [if_pos ⟨h, hrn⟩, if_pos h]
  · rw [if_neg (fun h' => h h'.1), if_neg h]

/-- When `size * size` is a value of `int` within the allocation limit,
`Identity` returns a square matrix with ones on the diagonal and zeros
elsewhere. -/
theorem Identity_ok (limit size : Int) (h0 : 0 ≤ size) (hmax : size * size ≤ maxInt)
    (hlimit : size * size ≤ limit) :
    ∃ d, Identity limit size = .ok ⟨size, size, d⟩ ∧ len d = size * size
      ∧ ∀ r c : Int, 0 ≤ r → r < size → 0 ≤ c → c < size →
          d.getD (r * size + c).toNat 0 = if r = c then 1 else 0 := by
  obtain ⟨d0, hnew, hl0, hv0⟩ := New_ok limit size size [] (Int.mul_nonneg h0 h0) hmax hlimit
  obtain ⟨d', hrun, hl', hv⟩ := Identity_loop size d0 h0 hl0 hmax (by
    intro i; rw [hv0 i, if_neg (by simp)])
  refine ⟨d', ?_, hl', hv⟩
  unfold Identity
  rw [hnew]
  simp only [bind_ok]
  rw [hrun]
  rfl

/-! ## Arithmetic of the element type -/

theorem Kind.wrap_modEq (k : Kind) (x : Int) : k.wrap x ≡ x [ZMOD 2 ^ k.bits] := by
  unfold Kind.wrap
  split
  · have h := (Int.mod_modEq (x + 2 ^ (k.bits - 1)) (2 ^ k.bits)).sub_right (2 ^ (k.bits - 1))
    simpa using h
  · exact Int.mod_modEq _ _

theorem Kind.wrap_congr (k : Kind) {x y : Int} (h : x ≡ y [ZMOD 2 ^ k.bits]) :
    k.wrap x = k.wrap y := by
  unfold Kind.wrap
  split
  · have h' : (x + 2 ^ (k.bits - 1)) % 2 ^ k.bits = (y + 2 ^ (k.bits - 1)) % 2 ^ k.bits :=
      h.add_right _
    rw [h']
  · exact h

theorem Kind.wrap_wrap (k : Kind) (x : Int) : k.wrap (k.wrap x) = k.wrap x :=
  k.wrap_congr (k.wrap_modEq x)

theorem Kind.wrap_zero (k : Kind) : k.wrap 0 = 0 := by
  cases k <;> decide

theorem Kind.wrap_one (k : Kind) : k.wrap 1 = 1 := by
  cases k <;> decide

theorem Kind.add_comm (k : Kind) (a b : Int) : k.add a b = k.add b a := by
  unfold Kind.add; rw [Int.add_comm]

/-- Accumulating in the element type gives the mathematical sum reduced into
the element type. -/
theorem sumT_eq_wrap_sumTo (k : Kind) (f g : Int → Int)
    (h : ∀ i : Nat, f i ≡ g i [ZMOD 2 ^ k.bits]) (n : Nat) :
    sumT k f n = k.wrap (sumTo g n) := by
  induction n with
  | zero => simp [sumT, sumTo, Kind.wrap_zero]
  | succ n ih =>
    simp only [sumT, sumTo, Kind.add]
    rw [ih]
    exact k.wrap_congr ((k.wrap_modEq _).add (h n))

theorem sumT_mul_eq (k : Kind) (a b : Int → Int) (n : Nat) :
    sumT k (fun i => k.mul (a i) (b i)) n = k.wrap (sumTo (fun i => a i * b i) n) :=
  sumT_eq_wrap_sumTo k (fun i => k.mul (a i) (b i)) (fun i => a i * b i)
    (fun i => k.wrap_modEq (a i * b i)) n

theorem sumTo_congr (f g : Int → Int) (n : Nat) (h : ∀ i : Nat, i < n → f i = g i) :
    sumTo f n = sumTo g n := by
  induction n with
  | zero => rfl
  | succ n ih =>
    simp only [sumTo]
    rw [ih (fun i hi => h i (by omega)), h n (by omega)]

/-- A sum against an indicator picks one term. -/
theorem sumTo_indicator (a : Int → Int) (j : Nat) (n : Nat) :
    sumTo (fun i => a i * (if i = (j : Int) then 1 else 0)) n = if j < n then a j else 0 := by
  induction n with
  | zero => simp [sumTo]
  | succ n ih =>
    simp only [sumTo]
    rw [ih]
    by_cases h1 : j < n
    · have e1 : ¬ ((n : Int) = (j : Int)) := by omega
      have e2 : j < n + 1 := by omega
      simp [h1, e1, e2]
    · by_cases h2 : j = n
      · subst h2
        simp
      · have e1 : ¬ ((n : Int) = (j : Int)) := by omega
        have e2 : ¬ (j < n + 1) := by omega
        simp [h1, e1, e2]

theorem sumTo_indicator_left (a : Int → Int) (j : Nat) (n : Nat) :
    sumTo (fun i => (if (j : Int) = i then 1 else 0) * a i) n = if j < n then a j else 0 := by
  rw [← sumTo_indicator a j n]
  apply sumTo_congr
  intro i _
  by_cases h : (j : Int) = i
  · rw [if_pos h, if_pos h.symm]; ring
  · rw [if_neg h, if_neg (fun h' => h h'.symm)]; ring

/-! ## `MustMul`: total correctness -/

/-- The innermost loop of `MustMul` returns the accumulated sum of products. -/
theorem MustMul_inner (k : Kind) (m m2 : Matrix) (i j : Int)
    (hm : len m.Data = m.Rows * m.Columns) (hml : len m.Data ≤ maxInt)
    (hm2 : len m2.Data = m2.Rows * m2.Columns) (hm2l : len m2.Data ≤ maxInt)
    (hc : m.Columns = m2.Rows) (hc0 : 0 ≤ m.Columns)
    (hi0 : 0 ≤ i) (hi : i < m.Rows) (hj0 : 0 ≤ j) (hj : j < m2.Columns) :
    forLoop m.Columns (fun n s => do
        let a ← m.At i n
        let b ← m2.At n j
        pure (k.add s (k.mul a b))) 0 = .ok (m.mulEntry k m2 i j) := by
  obtain ⟨s', hrun, hs'⟩ := forLoop_total m.Columns (fun n s => do
        let a ← m.At i n
        let b ← m2.At n j
        pure (k.add s (k.mul a b)))
    (fun n s => s = sumT k (fun n => k.mul (m.elem i n) (m2.elem n j)) n.toNat) 0 hc0 rfl
    (by
      intro n s hn0 hn hs
      refine ⟨k.add s (k.mul (m.elem i n) (m2.elem n j)), ?_, ?_⟩
      · dsimp only
        rw [At_ok m i n hm hml (by unfold Matrix.OutOfBounds; omega),
          At_ok m2 n j hm2 hm2l (by unfold Matrix.OutOfBounds; omega)]
        rfl
      · have e : (n + 1).toNat = n.toNat + 1 := by omega
        have e' : ((n.toNat : Nat) : Int) = n := by omega
        dsimp only
        rw [e, sumT, ← hs, e'])
  rw [hrun, hs']
  rfl

/-- One iteration of the middle loop of `MustMul`. -/
theorem MustMul_step (k : Kind) (m m2 ma : Matrix) (i j : Int)
    (hm : len m.Data = m.Rows * m.Columns) (hml : len m.Data ≤ maxInt)
    (hm2 : len m2.Data = m2.Rows * m2.Columns) (hm2l : len m2.Data ≤ maxInt)
    (hc : m.Columns = m2.Rows) (hc0 : 0 ≤ m.Columns)
    (hmax : m.Rows * m2.Columns ≤ maxInt)
    (hi0 : 0 ≤ i) (hi : i < m.Rows) (hj0 : 0 ≤ j) (hj : j < m2.Columns)
    (hinv : MulInv k m m2 (i * m2.Columns + j) ma) :
    ∃ ma', (do
        let s ← forLoop m.Columns (fun n s => do
          let a ← m.At i n
          let b ← m2.At n j
          pure (k.add s (k.mul a b))) 0
        ma.Set i j s) = .ok ma' ∧ MulInv k m m2 (i * m2.Columns + (j + 1)) ma' := by
  obtain ⟨hR, hC, hL, hv⟩ := hinv
  have hwf : len ma.Data = ma.Rows * ma.Columns := by rw [hR, hC]; exact hL
  have hin : ¬ ma.OutOfBounds i j := by unfold Matrix.OutOfBounds; omega
  refine ⟨{ ma with Data := ma.Data.set (i * ma.Columns + j).toNat (m.mulEntry k m2 i j) },
    ?_, ?_, ?_, ?_, ?_⟩
  · rw [MustMul_inner k m m2 i j hm hml hm2 hm2l hc hc0 hi0 hi hj0 hj]
    simp only [bind_ok]
    exact Set_ok ma i j _ hwf (by omega) hin
  · exact hR
  · exact hC
  · unfold len at *; simpa using hL
  · intro r c hr0 hc0' hcC hlt
    have hidx := lin_nonneg hr0 hc0' hcC
    have hidx' := lin_nonneg hi0 hj0 hj
    have hlt' : i * m2.Columns + j < len ma.Data := by
      rw [hL]; exact lin_lt hi hj0 hj
    show (ma.Data.set (i * ma.Columns + j).toNat (m.mulEntry k m2 i j)).getD
      (r * ma.Columns + c).toNat 0 = _
    rw [getD_set, hC]
    by_cases he : r * m2.Columns + c = i * m2.Columns + j
    · obtain ⟨e1, e2⟩ := lin_inj hc0' hcC hj0 hj he
      subst e1; subst e2
      unfold len at hlt'
      rw [if_pos ⟨rfl, by omega⟩]
    · rw [if_neg (fun h => he (by have := h.1; omega))]
      have := hv r c hr0 hc0' hcC (by omega)
      unfold Matrix.elem at this
      rw [hC] at this
      exact this

/-- The middle loop of `MustMul` fills one row of the result. -/
theorem MustMul_row (k : Kind) (m m2 ma : Matrix) (i : Int)
    (hm : len m.Data = m.Rows * m.Columns) (hml : len m.Data ≤ maxInt)
    (hm2 : len m2.Data = m2.Rows * m2.Columns) (hm2l : len m2.Data ≤ maxInt)
    (hc : m.Columns = m2.Rows) (hc0 : 0 ≤ m.Columns) (hc2 : 0 ≤ m2.Columns)
    (hmax : m.Rows * m2.Columns ≤ maxInt)
    (hi0 : 0 ≤ i) (hi : i < m.Rows)
    (hinv : MulInv k m m2 (i * m2.Columns) ma) :
    ∃ ma', forLoop m2.Columns (fun j ma => do
        let s ← forLoop m.Columns (fun n s => do
          let a ← m.At i n
          let b ← m2.At n j
          pure (k.add s (k.mul a b))) 0
        ma.Set i j s) ma = .ok ma' ∧ MulInv k m m2 ((i + 1) * m2.Columns) ma' := by
  have := forLoop_total m2.Columns (fun j ma => do
        let s ← forLoop m.Columns (fun n s => do
          let a ← m.At i n
          let b ← m2.At n j
          pure (k.add s (k.mul a b))) 0
        ma.Set i j s)
    (fun j ma => MulInv k m m2 (i * m2.Columns + j) ma) ma hc2 (by simpa using hinv)
    (by
      intro j t hj0 hj ht
      have := MustMul_step k m m2 t i j hm hml hm2 hm2l hc hc0 hmax hi0 hi hj0 hj ht
      exact this)
  have e : (i + 1) * m2.Columns = i * m2.Columns + m2.Columns := by ring
  rw [e]
  exact this

/-- When the operands are well formed, the inner dimensions agree and the
product of the outer dimensions is a value of `int` within the allocation
limit, `MustMul` returns the matrix of the accumulated sums of products. -/
theorem MustMul_ok (k : Kind) (limit : Int) (m m2 : Matrix)
    (hm : len m.Data = m.Rows * m.Columns) (hml : len m.Data ≤ maxInt)
    (hm2 : len m2.Data = m2.Rows * m2.Columns) (hm2l : len m2.Data ≤ maxInt)
    (hc : m.Columns = m2.Rows) (hr0 : 0 ≤ m.Rows) (hc0 : 0 ≤ m.Columns)
    (hc2 : 0 ≤ m2.Columns) (hmax : m.Rows * m2.Columns ≤ maxInt)
    (hlimit : m.Rows * m2.Columns ≤ limitWith (limitWith limit m.Data) m2.Data) :
    ∃ ma, m.MustMul k limit m2 = .ok ma ∧ MulInv k m m2 (m.Rows * m2.Columns) ma := by
  obtain ⟨d0, hnew, hl0, _⟩ := New_ok (limitWith (limitWith limit m.Data) m2.Data)
    m.Rows m2.Columns [] (Int.mul_nonneg hr0 hc2) hmax hlimit
  unfold Matrix.MustMul
  rw [if_neg (by simpa using hc), hnew]
  simp only [bind_ok]
  have := forLoop_total m.Rows (fun i ma =>
      forLoop m2.Columns (fun j ma => do
        let s ← forLoop m.Columns (fun n s => do
          let a ← m.At i n
          let b ← m2.At n j
          pure (k.add s (k.mul a b))) 0
        ma.Set i j s) ma)
    (fun i ma => MulInv k m m2 (i * m2.Columns) ma) ⟨m.Rows, m2.Columns, d0⟩ hr0
    ⟨rfl, rfl, hl0, by
      intro r c hr hc' hcC hlt
      have := lin_nonneg hr hc' hcC
      omega⟩
    (by
      intro i t hi0 hi ht
      exact MustMul_row k m m2 t i hm hml hm2 hm2l hc hc0 hc2 hmax hi0 hi ht)
  exact this

/-! ## Loops that fill a slice: `Scale` and `MustAdd` -/

/-- A loop that stores `g j` at every index `j < n` returns, keeps the length
and changes exactly the first `n` elements. -/
theorem fill_loop (n : Int) (g : Int → Int) (d : List Int) (h0 : 0 ≤ n) (hn : n ≤ len d) :
    ∃ d', forLoop n (fun j t => store t j (g j)) d = .ok d' ∧ d'.length = d.length
      ∧ ∀ i : Nat, d'.getD i 0 = if (i : Int) < n then g i else d.getD i 0 := by
  have := forLoop_total n (fun j t => store t j (g j))
    (fun j t => t.length = d.length ∧
      ∀ i : Nat, t.getD i 0 = if (i : Int) < j then g i else d.getD i 0) d h0
    ⟨rfl, fun i => by rw [if_neg (by omega)]⟩
    (by
      intro j t hj0 hjn ⟨hl, hv⟩
      have hlt : j < len t := by unfold len at *; omega
      refine ⟨t.set j.toNat (g j), store_ok _ hj0 hlt, by simp [hl], ?_⟩
      intro i
      rw [getD_set, hv i]
      unfold len at hlt
      by_cases hi : i = j.toNat
      · subst hi
        have e : ((j.toNat : Nat) : Int) = j := by omega
        rw [if_pos ⟨rfl, by omega⟩, if_pos (by omega), e]
      · rw [if_neg (fun h => hi h.1)]
        by_cases h2 : (i : Int) < j
        · rw [if_pos h2, if_pos (by omega)]
        · rw [if_neg h2, if_neg (by omega)])
  exact this

/-- The method `Scale` always returns: the shape is kept and every element is multiplied
by the scalar in the element type. -/
theorem Scale_ok (k : Kind) (limit : Int) (m : Matrix) (s : Int) :
    ∃ d, m.Scale k limit s = .ok ⟨m.Rows, m.Columns, d⟩ ∧ d.length = m.Data.length
      ∧ ∀ i : Nat, i < m.Data.length → d.getD i 0 = k.mul (m.Data.getD i 0) s := by
  unfold Matrix.Scale
  rw [make_ok (len_nonneg _) (len_le_limitWith limit m.Data)]
  simp only [bind_ok]
  rw [rangeLoop_eq]
  have hl : len (List.replicate (len m.Data).toNat (0 : Int)) = len m.Data := by
    unfold len; simp
  obtain ⟨d', hrun, hl', hv⟩ := fill_loop (len m.Data)
    (fun j => k.mul (m.Data.getD j.toNat 0) s) (List.replicate (len m.Data).toNat 0)
    (len_nonneg _) (by rw [hl])
  refine ⟨d', ?_, ?_, ?_⟩
  · rw [hrun]; rfl
  · rw [hl']; unfold len; simp
  · intro i hi
    rw [hv i]
    unfold len
    rw [if_pos (by omega)]
    simp

/-- For operands of the same shape whose slices have `Rows * Columns`
elements, `MustAdd` returns the element-wise sum in the element type. -/
theorem MustAdd_ok (k : Kind) (limit : Int) (m m2 : Matrix)
    (hm : len m.Data = m.Rows * m.Columns) (hml : len m.Data ≤ maxInt)
    (hm2 : len m2.Data = m2.Rows * m2.Columns)
    (hR : m.Rows = m2.Rows) (hC : m.Columns = m2.Columns) :
    ∃ d, m.MustAdd k limit m2 = .ok ⟨m.Rows, m2.Columns, d⟩ ∧ d.length = m.Data.length
      ∧ ∀ i : Nat, i < m.Data.length →
          d.getD i 0 = k.add (m.Data.getD i 0) (m2.Data.getD i 0) := by
  have hprod : m.Rows * m2.Columns = len m.Data := by rw [hm, hC]
  obtain ⟨d0, hnew, hl0, _⟩ := New_ok (limitWith (limitWith limit m.Data) m2.Data)
    m.Rows m2.Columns []
    (by rw [hprod]; exact len_nonneg _) (by rw [hprod]; exact hml)
    (by rw [hprod]; exact le_limitWith m2.Data (len_le_limitWith limit m.Data))
  unfold Matrix.MustAdd
  rw [if_neg (by simp [hR, hC]), hnew]
  simp only [bind_ok]
  rw [rangeLoop_eq]
  have hcongr := forLoop_congr (len m.Data)
    (fun j t => do
      let w ← index m2.Data j
      store t j (k.add (m.Data.getD j.toNat 0) w))
    (fun j t => store t j (k.add (m.Data.getD j.toNat 0) (m2.Data.getD j.toNat 0))) d0
    (by
      intro j t hj0 hj
      dsimp only
      rw [index_ok hj0 (by rw [hm2, ← hR, ← hC, ← hm]; exact hj)]
      rfl)
  rw [hcongr]
  obtain ⟨d', hrun, hl', hv⟩ := fill_loop (len m.Data)
    (fun j => k.add (m.Data.getD j.toNat 0) (m2.Data.getD j.toNat 0)) d0
    (len_nonneg _) (by rw [hl0, hprod])
  refine ⟨d', ?_, ?_, ?_⟩
  · rw [hrun]; rfl
  · rw [hl']
    have : len d0 = len m.Data := by rw [hl0, hprod]
    unfold len at this
    omega
  · intro i hi
    rw [hv i]
    unfold len
    rw [if_pos (by omega)]
    simp

/-- Whenever `MustAdd` returns, the shapes of the operands agree. -/
theorem MustAdd_shapes (k : Kind) (limit : Int) (m m2 ma : Matrix)
    (h : m.MustAdd k limit m2 = .ok ma) :
    m.Rows = m2.Rows ∧ m.Columns = m2.Columns := by
  unfold Matrix.MustAdd at h
  by_cases hs : m.Rows ≠ m2.Rows ∨ m.Columns ≠ m2.Columns
  · rw [if_pos hs] at h; cases h
  · constructor <;> by_contra hne <;> exact hs (by tauto)

/-! ## `MustMul`: what a returning call implies -/

/-- One returning iteration of the middle loop of `MustMul` keeps the shape
and the length of the result and shows that the next address is within the
slice. -/
theorem MustMul_step_of_ok (k : Kind) (m m2 t t' : Matrix) (i j L C : Int)
    (hL : L ≤ maxInt) (hi0 : 0 ≤ i) (hj0 : 0 ≤ j) (hC : 0 ≤ C)
    (hinv : t.Columns = C ∧ len t.Data = L ∧ i * C + j ≤ L)
    (hb : (do
        let s ← forLoop m.Columns (fun n s => do
          let a ← m.At i n
          let b ← m2.At n j
          pure (k.add s (k.mul a b))) 0
        t.Set i j s) = .ok t') :
    t'.Columns = C ∧ len t'.Data = L ∧ i * C + (j + 1) ≤ L := by
  obtain ⟨hc, hl, hp⟩ := hinv
  cases hs : forLoop m.Columns (fun n s => do
          let a ← m.At i n
          let b ← m2.At n j
          pure (k.add s (k.mul a b))) 0 with
  | error e => rw [hs] at hb; cases hb
  | ok s =>
    rw [hs] at hb
    simp only [bind_ok] at hb
    obtain ⟨_, h2, h3, _, _, h6⟩ := Set_shape t t' i j s hb
    have hiC : 0 ≤ i * C := Int.mul_nonneg hi0 hC
    have e1 : imul i t.Columns = i * C := by
      rw [hc]; exact imul_eq (isInt_of_bounds hiC (by omega))
    have e2 : iadd (imul i t.Columns) j = i * C + j := by
      unfold iadd; rw [e1, wrapInt_eq (isInt_of_bounds (by omega) (by omega))]
    rw [e2, hl] at h6
    refine ⟨by rw [h2, hc], ?_, by omega⟩
    unfold len at *
    rw [h3]; exact hl

/-- Whenever `MustMul` returns for non-negative outer dimensions, the inner
dimensions agree, the result has the outer dimensions as its shape and their
product as its length, and that product is a value of `int` within the
allocation limit. -/
theorem MustMul_shape (k : Kind) (limit : Int) (m m2 ma : Matrix) (hr0 : 0 ≤ m.Rows)
    (hc2 : 0 ≤ m2.Columns) (h : m.MustMul k limit m2 = .ok ma) :
    m.Columns = m2.Rows ∧ ma.Rows = m.Rows ∧ ma.Columns = m2.Columns
      ∧ len ma.Data = m.Rows * m2.Columns ∧ m.Rows * m2.Columns ≤ maxInt
      ∧ m.Rows * m2.Columns ≤ limitWith (limitWith limit m.Data) m2.Data := by
  unfold Matrix.MustMul at h
  by_cases hne : m.Columns ≠ m2.Rows
  · rw [if_pos hne] at h; cases h
  · rw [if_neg hne] at h
    cases hnew : New (limitWith (limitWith limit m.Data) m2.Data) m.Rows m2.Columns [] with
    | error e => rw [hnew] at h; cases h
    | ok m0 =>
      rw [hnew] at h
      simp only [bind_ok] at h
      obtain ⟨hR0, hC0, hL0, hL0nn, hL0le⟩ := New_shape _ _ _ _ _ hnew
      have hLmax : imul m.Rows m2.Columns ≤ maxInt := (wrapInt_isInt _).2
      have key := forLoop_inv_of_ok m.Rows _
        (fun i t => t.Rows = m.Rows ∧ t.Columns = m2.Columns
          ∧ len t.Data = imul m.Rows m2.Columns ∧ i * m2.Columns ≤ imul m.Rows m2.Columns)
        m0 ma hr0 ⟨hR0, hC0, hL0, by simpa using hL0nn⟩
        (by
          intro i t t' hi0 hi ⟨hR, hC, hL, hp⟩ hrow
          have inner := forLoop_inv_of_ok m2.Columns _
            (fun j u => u.Rows = m.Rows ∧ u.Columns = m2.Columns
              ∧ len u.Data = imul m.Rows m2.Columns
              ∧ i * m2.Columns + j ≤ imul m.Rows m2.Columns)
            t t' hc2 ⟨hR, hC, hL, by simpa using hp⟩
            (by
              intro j u u' hj0 hj ⟨hR', hC', hL', hp'⟩ hb
              have := MustMul_step_of_ok k m m2 u u' i j _ _ hLmax hi0 hj0 hc2
                ⟨hC', hL', hp'⟩ hb
              have hr := Set_shape u u' i j
              refine ⟨?_, this.1, this.2.1, this.2.2⟩
              cases hs : forLoop m.Columns (fun n s => do
                  let a ← m.At i n
                  let b ← m2.At n j
                  pure (k.add s (k.mul a b))) 0 with
              | error e => rw [hs] at hb; cases hb
              | ok s =>
                rw [hs] at hb
                simp only [bind_ok] at hb
                rw [(hr s hb).1, hR']) hrow
          obtain ⟨a1, a2, a3, a4⟩ := inner
          refine ⟨a1, a2, a3, ?_⟩
          have e : (i + 1) * m2.Columns = i * m2.Columns + m2.Columns := by ring
          rw [e]; exact a4) h
      obtain ⟨b1, b2, b3, b4⟩ := key
      have hprod : m.Rows * m2.Columns ≤ maxInt := by omega
      have e : imul m.Rows m2.Columns = m.Rows * m2.Columns :=
        imul_eq (isInt_of_bounds (Int.mul_nonneg hr0 hc2) hprod)
      exact ⟨by simpa using hne, b1, b2, by rw [b3, e], hprod, by rw [← e]; exact hL0le⟩

/-- Every address below `R * C` is the row-major address of a position. -/
theorem lin_decomp {p R C : Int} (hp0 : 0 ≤ p) (hp : p < R * C) (hC : 0 ≤ C) :
    ∃ r c : Int, 0 ≤ r ∧ r < R ∧ 0 ≤ c ∧ c < C ∧ p = r * C + c := by
  have hCpos : 0 < C := by
    by_contra hn
    have h : C = 0 := by omega
    rw [h, Int.mul_zero] at hp
    omega
  refine ⟨p / C, p % C, Int.ediv_nonneg hp0 hC, ?_, Int.emod_nonneg _ (by omega),
    Int.emod_lt_of_pos _ hCpos, ?_⟩
  · rw [Int.ediv_lt_iff_lt_mul hCpos]; exact hp
  · have := Int.ediv_add_emod p C
    rw [Int.mul_comm] at this
    exact this.symm

/-! ## `MustAdd`: what a returning call implies -/

/-- Whenever `MustAdd` returns, the result has the shape of the operands and
as many elements as the first operand, and that number is the product of the
dimensions when the first operand is well formed. -/
theorem MustAdd_shape (k : Kind) (limit : Int) (m m2 ma : Matrix)
    (h : m.MustAdd k limit m2 = .ok ma) :
    ma.Rows = m.Rows ∧ ma.Columns = m2.Columns
      ∧ len ma.Data = imul m.Rows m2.Columns ∧ len m.Data ≤ len ma.Data := by
  unfold Matrix.MustAdd at h
  by_cases hs : m.Rows ≠ m2.Rows ∨ m.Columns ≠ m2.Columns
  · rw [if_pos hs] at h; cases h
  · rw [if_neg hs] at h
    cases hnew : New (limitWith (limitWith limit m.Data) m2.Data) m.Rows m2.Columns [] with
    | error e => rw [hnew] at h; cases h
    | ok m0 =>
      rw [hnew] at h
      simp only [bind_ok] at h
      obtain ⟨hR0, hC0, hL0, hL0nn, _⟩ := New_shape _ _ _ _ _ hnew
      rw [rangeLoop_eq] at h
      cases hrun : forLoop (len m.Data) (fun j t => do
          let w ← index m2.Data j
          store t j (k.add (m.Data.getD j.toNat 0) w)) m0.Data with
      | error e => rw [hrun] at h; cases h
      | ok d =>
        rw [hrun] at h
        simp only [bind_ok, pure_eq_ok] at h
        injection h with h
        subst h
        have key := forLoop_inv_of_ok (len m.Data) _
          (fun j t => len t = imul m.Rows m2.Columns ∧ j ≤ imul m.Rows m2.Columns)
          m0.Data d (len_nonneg _) ⟨hL0, hL0nn⟩
          (by
            intro j t t' hj0 hj ⟨hl, hp⟩ hb
            cases hi : index m2.Data j with
            | error e => rw [hi] at hb; cases hb
            | ok w =>
              rw [hi] at hb
              simp only [bind_ok] at hb
              rw [store_ok_iff] at hb
              obtain ⟨⟨_, hlt⟩, ht'⟩ := hb
              refine ⟨?_, by omega⟩
              rw [ht']
              unfold len at *
              simpa using hl) hrun
        exact ⟨hR0, hC0, key.1, by rw [key.1]; exact key.2⟩

/-! ## Claims about construction, well-formedness and element access -/

/-- C1, as stated, fails: for the non-negative dimensions `2^62` and `2` the
product wraps to a negative `int` and `make` panics, whatever the allocation
limit of the runtime is, so `New` does not return. -/
theorem C1_counterexample :
    (0 : Int) ≤ 2 ^ 62 ∧ (0 : Int) ≤ 2 ∧
      ∀ limit : Int, New limit (2 ^ 62) 2 [] = .error .makesliceLen :=
  ⟨by decide, by decide, fun limit => New_neg limit (2 ^ 62) 2 [] (Or.inl (by decide))⟩

/-- C1 (amended): for all `rows ≥ 0`, `columns ≥ 0` whose product does not
exceed the allocation limit of the runtime (the largest length that `make`
allocates for the element type, itself a value of `int`), and every sequence
of initial values, `New` returns a matrix with `Rows = rows`,
`Columns = columns` and `len(Data) = rows * columns` in which
`Data[i] = vals[i]` for every `i < rows * columns` with `i < len(vals)` and
`Data[i] = 0` for the other `i < rows * columns`. -/
theorem C1_New (limit rows columns : Int) (vals : List Int)
    (hr : 0 ≤ rows) (hc : 0 ≤ columns) (hlim : limit ≤ maxInt)
    (hmax : rows * columns ≤ limit) :
    ∃ m, New limit rows columns vals = .ok m ∧ m.Rows = rows ∧ m.Columns = columns
      ∧ len m.Data = rows * columns
      ∧ ∀ i : Int, 0 ≤ i → i < rows * columns →
          index m.Data i = if i < len vals then index vals i else .ok 0 := by
  obtain ⟨d, hnew, hl, hv⟩ := New_ok limit rows columns vals (Int.mul_nonneg hr hc)
    (by omega) hmax
  refine ⟨_, hnew, rfl, rfl, hl, ?_⟩
  intro i hi0 hi
  rw [index_ok hi0 (by rw [hl]; exact hi), hv i.toNat]
  have e : ((i.toNat : Nat) : Int) = i := by omega
  unfold len
  by_cases h : i < (vals.length : Int)
  · rw [if_pos h, if_pos ⟨by omega, by omega⟩, index_ok hi0 h]
  · rw [if_neg h, if_neg (by omega)]

/-- C1 (amended) at `New(2, 2, 7)` with the allocation limit `2^45`. -/
theorem C1_New_witness :
    (0 : Int) ≤ 2 ∧ (2 : Int) ^ 45 ≤ maxInt ∧ (2 : Int) * 2 ≤ 2 ^ 45 ∧
    ∃ m, New (2 ^ 45) 2 2 [7] = .ok m ∧ m.Rows = 2 ∧ m.Columns = 2 ∧ len m.Data = 2 * 2
      ∧ ∀ i : Int, 0 ≤ i → i < 2 * 2 →
          index m.Data i = if i < len [7] then index [7] i else .ok 0 :=
  ⟨by decide, by decide, by decide,
    C1_New (2 ^ 45) 2 2 [7] (by decide) (by decide) (by decide) (by decide)⟩

/-- C2, as stated, fails: for the non-negative dimensions `2^32` and `2^32`
the product wraps to `0`, so whenever `New` returns, what it returns has an
empty slice and is not well formed; with the allocation limit `2^48` it does
return. -/
theorem C2_counterexample :
    (0 : Int) ≤ 2 ^ 32 ∧ New (2 ^ 48) (2 ^ 32) (2 ^ 32) [] = .ok ⟨2 ^ 32, 2 ^ 32, []⟩
      ∧ ¬ Matrix.WF ⟨2 ^ 32, 2 ^ 32, []⟩
      ∧ ∀ (limit : Int) (m : Matrix), New limit (2 ^ 32) (2 ^ 32) [] = .ok m → ¬ m.WF := by
  refine ⟨by decide, by decide, by decide, ?_⟩
  intro limit m hnew hwf
  obtain ⟨hR, hC, hL, _, _⟩ := New_shape limit _ _ _ m hnew
  obtain ⟨_, _, hl⟩ := hwf
  rw [hL, hR, hC] at hl
  revert hl
  decide

/-- C2 (amended): the well-formedness predicate is established by `New` for
non-negative dimensions whose product does not exceed the allocation limit of
the runtime and by `Identity` for a size `≥ 0` whose square does not exceed
it, and it is preserved by every operation: if the operands are well formed,
then the matrix left by a returning `Set` and every matrix returned by
`Scale`, `MustAdd` and `MustMul` is well formed. -/
theorem C2_WF :
    (∀ limit rows columns vals, 0 ≤ rows → 0 ≤ columns → limit ≤ maxInt →
      rows * columns ≤ limit → ∃ m, New limit rows columns vals = .ok m ∧ m.WF) ∧
    (∀ limit size, 0 ≤ size → limit ≤ maxInt → size * size ≤ limit →
      ∃ m, Identity limit size = .ok m ∧ m.WF) ∧
    (∀ (m m' : Matrix) (row column v : Int), m.WF → m.Set row column v = .ok m' → m'.WF) ∧
    (∀ (k : Kind) (limit : Int) (m m' : Matrix) (s : Int),
      m.WF → m.Scale k limit s = .ok m' → m'.WF) ∧
    (∀ (k : Kind) (limit : Int) (m m2 m' : Matrix),
      m.WF → m2.WF → m.MustAdd k limit m2 = .ok m' → m'.WF) ∧
    (∀ (k : Kind) (limit : Int) (m m2 m' : Matrix),
      m.WF → m2.WF → m.MustMul k limit m2 = .ok m' → m'.WF) := by
  refine ⟨?_, ?_, ?_, ?_, ?_, ?_⟩
  · intro limit rows columns vals hr hc hlim hmax
    obtain ⟨d, hnew, hl, _⟩ := New_ok limit rows columns vals (Int.mul_nonneg hr hc)
      (by omega) hmax
    exact ⟨_, hnew, hr, hc, hl⟩
  · intro limit size h0 hlim hmax
    obtain ⟨d, hid, hl, _⟩ := Identity_ok limit size h0 (by omega) hmax
    exact ⟨_, hid, h0, h0, hl⟩
  · intro m m' row column v ⟨h1, h2, h3⟩ hset
    obtain ⟨e1, e2, e3, _⟩ := Set_shape m m' row column v hset
    refine ⟨by rw [e1]; exact h1, by rw [e2]; exact h2, ?_⟩
    unfold len at *
    rw [e1, e2, e3]; exact h3
  · intro k limit m m' s ⟨h1, h2, h3⟩ hs
    obtain ⟨d, hok, hl, _⟩ := Scale_ok k limit m s
    rw [hok] at hs
    injection hs with hs
    subst hs
    refine ⟨h1, h2, ?_⟩
    unfold len at *
    show ((d.length : Nat) : Int) = _
    rw [hl]; exact h3
  · intro k limit m m2 m' ⟨h1, _, h3⟩ ⟨_, g2, _⟩ hadd
    obtain ⟨hR, hC⟩ := MustAdd_shapes k limit m m2 m' hadd
    obtain ⟨e1, e2, e3, e4⟩ := MustAdd_shape k limit m m2 m' hadd
    have hmax : imul m.Rows m2.Columns ≤ maxInt := (wrapInt_isInt _).2
    have hprod : m.Rows * m2.Columns = len m.Data := by rw [h3, hC]
    have e : imul m.Rows m2.Columns = m.Rows * m2.Columns :=
      imul_eq (isInt_of_bounds (Int.mul_nonneg h1 g2) (by omega))
    exact ⟨by rw [e1]; exact h1, by rw [e2]; exact g2, by rw [e3, e, e1, e2]⟩
  · intro k limit m m2 m' ⟨h1, _, _⟩ ⟨_, g2, _⟩ hmul
    obtain ⟨_, e1, e2, e3, _⟩ := MustMul_shape k limit m m2 m' h1 g2 hmul
    exact ⟨by rw [e1]; exact h1, by rw [e2]; exact g2, by rw [e3, e1, e2]⟩

/-- C2 (amended) at `New(2, 3)` with the allocation limit `2^45`. -/
theorem C2_WF_witness : ∃ m, New (2 ^ 45) 2 3 [] = .ok m ∧ m.WF :=
  C2_WF.1 (2 ^ 45) 2 3 [] (by decide) (by decide) (by decide) (by decide)

/-- C3: for every matrix with `len(Data) = Rows * Columns`, `At` and `Set`
fail if and only if `row < 0`, `column < 0`, `row ≥ Rows` or
`column ≥ Columns`, and then with the out-of-bounds panic; for an in-bounds
index the computed address is the unwrapped `row * Columns + column`, it is a
position of `Data`, `At` returns the element there and `Set` stores there. -/
theorem C3_At_Set_bounds (m : Matrix) (row column v : Int)
    (hwf : len m.Data = m.Rows * m.Columns) (hlen : len m.Data ≤ maxInt) :
    ((m.At row column).isOk = false ↔ m.OutOfBounds row column) ∧
    ((m.Set row column v).isOk = false ↔ m.OutOfBounds row column) ∧
    (m.OutOfBounds row column →
      m.At row column = .error .indexesOutOfBounds ∧
      m.Set row column v = .error .indexesOutOfBounds) ∧
    (¬ m.OutOfBounds row column →
      iadd (imul row m.Columns) column = row * m.Columns + column ∧
      0 ≤ row * m.Columns + column ∧ row * m.Columns + column < len m.Data ∧
      m.At row column = index m.Data (row * m.Columns + column) ∧
      m.At row column = .ok (m.Data.getD (row * m.Columns + column).toNat 0) ∧
      m.Set row column v
        = .ok { m with Data := m.Data.set (row * m.Columns + column).toNat v }) := by
  by_cases hb : m.OutOfBounds row column
  · refine ⟨?_, ?_, ?_, fun h => absurd hb h⟩
    · rw [At_error m row column hb]; simp [hb]
    · rw [Set_error m row column v hb]; simp [hb]
    · intro _; exact ⟨At_error m row column hb, Set_error m row column v hb⟩
  · obtain ⟨e, h0, h1⟩ := linear_index m row column hwf hlen hb
    refine ⟨?_, ?_, fun h => absurd h hb, fun _ => ⟨e, h0, h1, ?_, ?_, ?_⟩⟩
    · rw [At_ok m row column hwf hlen hb]; simp [hb]
    · rw [Set_ok m row column v hwf hlen hb]; simp [hb]
    · rw [At_ok m row column hwf hlen hb, index_ok h0 h1]; rfl
    · exact At_ok m row column hwf hlen hb
    · exact Set_ok m row column v hwf hlen hb

/-- C3 at the 2x2 matrix `[1,2,3,4]`, position `(1, 0)`. -/
theorem C3_At_Set_bounds_witness :
    len [1, 2, 3, 4] = (2 : Int) * 2 ∧
    Matrix.At ⟨2, 2, [1, 2, 3, 4]⟩ 1 0 = .ok 3 ∧
    Matrix.Set ⟨2, 2, [1, 2, 3, 4]⟩ 1 0 9 = .ok ⟨2, 2, [1, 2, 9, 4]⟩ :=
  have h := (C3_At_Set_bounds ⟨2, 2, [1, 2, 3, 4]⟩ 1 0 9 (by decide) (by decide)).2.2.2
    (by decide)
  ⟨by decide, h.2.2.2.2.1, h.2.2.2.2.2⟩

/-- C4: for every matrix with `len(Data) = Rows * Columns`, every in-bounds
`(r, c)` and every value `v`, `Set(r, c, v)` returns, and afterwards
`At(r, c) = v`, `At(r', c')` is what it was for every other in-bounds
position, and `Rows`, `Columns` and `len(Data)` are unchanged. -/
theorem C4_Set_At_roundtrip (m : Matrix) (r c v : Int)
    (hwf : len m.Data = m.Rows * m.Columns) (hlen : len m.Data ≤ maxInt)
    (hin : ¬ m.OutOfBounds r c) :
    ∃ m', m.Set r c v = .ok m' ∧ m'.At r c = .ok v ∧
      (∀ r' c' : Int, ¬ m.OutOfBounds r' c' → (r', c') ≠ (r, c) →
        m'.At r' c' = m.At r' c') ∧
      m'.Rows = m.Rows ∧ m'.Columns = m.Columns ∧ len m'.Data = len m.Data := by
  obtain ⟨_, h0, h1⟩ := linear_index m r c hwf hlen hin
  have hl' : len (m.Data.set (r * m.Columns + c).toNat v) = len m.Data := by
    unfold len; simp
  have hwf' : len (m.Data.set (r * m.Columns + c).toNat v) = m.Rows * m.Columns := by
    rw [hl']; exact hwf
  have hlen' : len (m.Data.set (r * m.Columns + c).toNat v) ≤ maxInt := by
    rw [hl']; exact hlen
  refine ⟨{ m with Data := m.Data.set (r * m.Columns + c).toNat v },
    Set_ok m r c v hwf hlen hin, ?_, ?_, rfl, rfl, hl'⟩
  · rw [At_ok ⟨m.Rows, m.Columns, m.Data.set (r * m.Columns + c).toNat v⟩ r c hwf' hlen' hin]
    show Except.ok ((m.Data.set (r * m.Columns + c).toNat v).getD
      (r * m.Columns + c).toNat 0) = _
    unfold len at h1
    rw [getD_set, if_pos ⟨rfl, by omega⟩]
  · intro r' c' hin' hne
    rw [At_ok ⟨m.Rows, m.Columns, m.Data.set (r * m.Columns + c).toNat v⟩ r' c' hwf' hlen'
      hin', At_ok m r' c' hwf hlen hin']
    show Except.ok ((m.Data.set (r * m.Columns + c).toNat v).getD
      (r' * m.Columns + c').toNat 0) = _
    obtain ⟨_, h0', _⟩ := linear_index m r' c' hwf hlen hin'
    unfold Matrix.OutOfBounds at hin hin'
    rw [getD_set, if_neg]
    · rfl
    · rintro ⟨he, _⟩
      have he' : r' * m.Columns + c' = r * m.Columns + c := by omega
      obtain ⟨e1, e2⟩ := lin_inj (by omega) (by omega) (by omega) (by omega) he'
      exact hne (by rw [e1, e2])

/-- C4 at the 2x2 matrix `[1,2,3,4]`, position `(0, 1)`, value `9`. -/
theorem C4_Set_At_roundtrip_witness :
    len [1, 2, 3, 4] = (2 : Int) * 2 ∧
    ∃ m', Matrix.Set ⟨2, 2, [1, 2, 3, 4]⟩ 0 1 9 = .ok m' ∧ m'.At 0 1 = .ok 9 ∧
      (∀ r' c' : Int, ¬ Matrix.OutOfBounds ⟨2, 2, [1, 2, 3, 4]⟩ r' c' → (r', c') ≠ (0, 1) →
        m'.At r' c' = Matrix.At ⟨2, 2, [1, 2, 3, 4]⟩ r' c') ∧
      m'.Rows = 2 ∧ m'.Columns = 2 ∧ len m'.Data = len [1, 2, 3, 4] :=
  ⟨by decide, C4_Set_At_roundtrip ⟨2, 2, [1, 2, 3, 4]⟩ 0 1 9 (by decide) (by decide)
    (by decide)⟩

/-- C5, as stated, fails: for the size `2^32 ≥ 0` the product `size * size`
wraps to `0`; whatever the allocation limit is, `New` either panics or returns
an empty slice, and then the first diagonal store is a slice index out of
range, so `Identity` does not return. -/
theorem C5_counterexample :
    (0 : Int) ≤ 2 ^ 32 ∧ Identity (2 ^ 48) (2 ^ 32) = .error .indexOutOfRange
      ∧ ∀ limit : Int, (Identity limit (2 ^ 32)).isOk = false := by
  refine ⟨by decide, by decide, ?_⟩
  intro limit
  have h0 : imul (2 ^ 32) (2 ^ 32) = 0 := by decide
  unfold Identity
  by_cases hl : 0 ≤ limit
  · rw [New_nil limit (2 ^ 32) (2 ^ 32) (by rw [h0]) (by rw [h0]; exact hl), h0]
    rfl
  · rw [New_neg limit (2 ^ 32) (2 ^ 32) [] (Or.inr (by rw [h0]; omega))]
    rfl

/-- C5 (amended): for every `n ≥ 0` whose square does not exceed the
allocation limit of the runtime (the largest length that `make` allocates for
the element type, itself a value of `int`), `Identity(n)` returns an `n x n`
matrix (`Rows = Columns = n`, `len(Data) = n * n`) with `At(i, i) = 1` for
every `0 ≤ i < n` and `At(i, j) = 0` for every `0 ≤ i, j < n` with `i ≠ j`;
`Identity(0)` is the empty matrix. -/
theorem C5_Identity (limit n : Int) (h0 : 0 ≤ n) (hlim : limit ≤ maxInt)
    (hmax : n * n ≤ limit) :
    (∃ m, Identity limit n = .ok m ∧ m.Rows = n ∧ m.Columns = n ∧ len m.Data = n * n ∧
      (∀ i : Int, 0 ≤ i → i < n → m.At i i = .ok 1) ∧
      (∀ i j : Int, 0 ≤ i → i < n → 0 ≤ j → j < n → i ≠ j → m.At i j = .ok 0)) ∧
    Identity limit 0 = .ok ⟨0, 0, []⟩ ∧ Matrix.WF ⟨0, 0, []⟩ := by
  have hl0 : 0 ≤ limit := le_trans (Int.mul_nonneg h0 h0) hmax
  have hzero : Identity limit 0 = .ok ⟨0, 0, []⟩ := by
    have h00 : imul 0 0 = 0 := by decide
    unfold Identity
    rw [New_nil limit 0 0 (by rw [h00]) (by rw [h00]; exact hl0), h00]
    rfl
  refine ⟨?_, hzero, by decide⟩
  obtain ⟨d, hid, hl, hv⟩ := Identity_ok limit n h0 (by omega) hmax
  have hdmax : len d ≤ maxInt := by rw [hl]; omega
  refine ⟨_, hid, rfl, rfl, hl, ?_, ?_⟩
  · intro i hi0 hi
    rw [At_ok ⟨n, n, d⟩ i i hl hdmax
      (by unfold Matrix.OutOfBounds; simp only []; omega)]
    show Except.ok (d.getD (i * n + i).toNat 0) = _
    rw [hv i i hi0 hi hi0 hi, if_pos rfl]
  · intro i j hi0 hi hj0 hj hne
    rw [At_ok ⟨n, n, d⟩ i j hl hdmax
      (by unfold Matrix.OutOfBounds; simp only []; omega)]
    show Except.ok (d.getD (i * n + j).toNat 0) = _
    rw [hv i j hi0 hi hj0 hj, if_neg hne]

/-- C5 (amended) at `Identity(3)` with the allocation limit `2^45`. -/
theorem C5_Identity_witness :
    (0 : Int) ≤ 3 ∧ (2 : Int) ^ 45 ≤ maxInt ∧ (3 : Int) * 3 ≤ 2 ^ 45 ∧
    Identity (2 ^ 45) 3 = .ok ⟨3, 3, [1, 0, 0, 0, 1, 0, 0, 0, 1]⟩ ∧
    ∃ m, Identity (2 ^ 45) 3 = .ok m ∧ m.Rows = 3 ∧ m.Columns = 3 ∧ len m.Data = 3 * 3 ∧
      (∀ i : Int, 0 ≤ i → i < 3 → m.At i i = .ok 1) ∧
      (∀ i j : Int, 0 ≤ i → i < 3 → 0 ≤ j → j < 3 → i ≠ j → m.At i j = .ok 0) :=
  ⟨by decide, by decide, by decide, by decide,
    (C5_Identity (2 ^ 45) 3 (by decide) (by decide) (by decide)).1⟩

/-! ## Claims about `MustMul` and `MustAdd` -/

/-- Every entry of a well-typed matrix read through row-major addressing is a
value of the element type. -/
theorem elem_inRange (k : Kind) (m : Matrix) (ht : m.Typed k) (r c : Int)
    (h0 : 0 ≤ r * m.Columns + c) (h1 : r * m.Columns + c < len m.Data) :
    k.wrap (m.elem r c) = m.elem r c := by
  unfold len at h1
  exact ht _ (getD_mem (by omega))

/-- The product with an identity matrix has the entries of the left operand. -/
theorem mulEntry_identity (k : Kind) (m : Matrix) (d : List Int) (ht : m.Typed k)
    (hm : len m.Data = m.Rows * m.Columns) (hc0 : 0 ≤ m.Columns)
    (hd : ∀ r c : Int, 0 ≤ r → r < m.Columns → 0 ≤ c → c < m.Columns →
      d.getD (r * m.Columns + c).toNat 0 = if r = c then 1 else 0)
    (r c : Int) (hr0 : 0 ≤ r) (hr : r < m.Rows) (hc0' : 0 ≤ c) (hc : c < m.Columns) :
    m.mulEntry k ⟨m.Columns, m.Columns, d⟩ r c = m.elem r c := by
  unfold Matrix.mulEntry
  rw [sumT_mul_eq]
  have e1 : sumTo (fun n => m.elem r n * Matrix.elem ⟨m.Columns, m.Columns, d⟩ n c)
      m.Columns.toNat
      = sumTo (fun n => m.elem r n * (if n = ((c.toNat : Nat) : Int) then 1 else 0))
        m.Columns.toNat := by
    apply sumTo_congr
    intro i hi
    have ec : ((c.toNat : Nat) : Int) = c := by omega
    show m.elem r i * d.getD ((i : Int) * m.Columns + c).toNat 0 = _
    rw [hd i c (by omega) (by omega) hc0' hc, ec]
  rw [e1, sumTo_indicator (fun n => m.elem r n) c.toNat m.Columns.toNat,
    if_pos (by omega)]
  have ec : ((c.toNat : Nat) : Int) = c := by omega
  rw [ec]
  exact elem_inRange k m ht r c (lin_nonneg hr0 hc0' hc) (by rw [hm]; exact lin_lt hr hc0' hc)

/-- C6, as stated, fails: the well-formed matrix with zero rows and
`3037000500` columns has an empty slice, but `Identity(A.Columns)` asks `make`
for a slice whose length has wrapped to a negative `int` and panics, whatever
the allocation limit is. -/
theorem C6_counterexample :
    Matrix.WF ⟨0, 3037000500, []⟩ ∧ Matrix.IsValue ⟨0, 3037000500, []⟩
      ∧ Matrix.Typed .int8 ⟨0, 3037000500, []⟩
      ∧ ∀ limit : Int, (Identity limit (Matrix.Columns ⟨0, 3037000500, []⟩) >>=
          fun I => Matrix.MustMul .int8 limit ⟨0, 3037000500, []⟩ I)
            = .error .makesliceLen := by
  refine ⟨by decide, by decide, by decide, ?_⟩
  intro limit
  unfold Identity
  rw [New_neg limit _ _ [] (Or.inl (by decide))]
  rfl

/-- C6 (amended): for every well-formed matrix `A` over an integer element
type for which `A.Columns * A.Columns` does not exceed the allocation limit
of the runtime, `A.MustMul(Identity(A.Columns))` returns and equals `A` (same
`Rows`, `Columns` and `Data`), also when `A` has zero rows or zero columns;
and `New(2,2,1,2,3,4).MustMul(Identity(2))` has shape 2x2 and `Data`
`[1,2,3,4]` when the limit allows four elements. -/
theorem C6_MustMul_Identity (k : Kind) (limit : Int) (A : Matrix) (hwf : A.WF)
    (hv : A.IsValue) (ht : A.Typed k) (hlim : limit ≤ maxInt)
    (hsq : A.Columns * A.Columns ≤ limit) :
    (Identity limit A.Columns >>= fun I => A.MustMul k limit I) = .ok A ∧
    (4 ≤ limit →
      (New limit 2 2 [1, 2, 3, 4] >>= fun B => Identity limit 2 >>=
        fun I => B.MustMul k limit I) = .ok ⟨2, 2, [1, 2, 3, 4]⟩) := by
  obtain ⟨hr0, hc0, hl⟩ := hwf
  obtain ⟨_, _, hlen⟩ := hv
  have hident : ∀ (B : Matrix), 0 ≤ B.Rows → 0 ≤ B.Columns →
      len B.Data = B.Rows * B.Columns → len B.Data ≤ maxInt → B.Typed k →
      B.Columns * B.Columns ≤ limit →
      (Identity limit B.Columns >>= fun I => B.MustMul k limit I) = .ok B := by
    intro B hr0 hc0 hl hlen ht hsq
    obtain ⟨d, hid, hdl, hdv⟩ := Identity_ok limit B.Columns hc0 (by omega) hsq
    rw [hid]
    simp only [bind_ok]
    obtain ⟨ma, hmul, hR, hC, hL, hE⟩ := MustMul_ok k limit B ⟨B.Columns, B.Columns, d⟩ hl
      hlen hdl (by rw [hdl]; omega) rfl hr0 hc0 hc0 (by rw [← hl]; exact hlen)
      (by rw [← hl]; exact le_limitWith d (len_le_limitWith limit B.Data))
    rw [hmul]
    congr 1
    obtain ⟨R, C, D⟩ := ma
    simp only at hR hC hL hE
    subst hR; subst hC
    congr 1
    apply ext_getD
    · unfold len at hL hl; omega
    · intro p hp
      unfold len at hL
      obtain ⟨r, c, h1, h2, h3, h4, h5⟩ := lin_decomp (p := (p : Int)) (R := B.Rows)
        (C := B.Columns) (by omega) (by omega) hc0
      have ep : p = (r * B.Columns + c).toNat := by omega
      rw [ep]
      have := hE r c h1 h3 h4 (lin_lt h2 h3 h4)
      rw [mulEntry_identity k B d ht hl hc0 hdv r c h1 h2 h3 h4] at this
      exact this
  refine ⟨hident A hr0 hc0 hl hlen ht hsq, ?_⟩
  intro h4
  obtain ⟨d, hnew, hdl, hdv⟩ := New_ok limit 2 2 [1, 2, 3, 4] (by decide) (by decide)
    (by omega)
  have hd : d = [1, 2, 3, 4] := by
    apply ext_getD
    · unfold len at hdl; simp at hdl ⊢; omega
    · intro i hi
      rw [hdv i]
      unfold len at hdl
      have hi4 : i < 4 := by omega
      have : (i : Int) < 2 * 2 ∧ i < [(1 : Int), 2, 3, 4].length := ⟨by omega, by simpa using hi4⟩
      rw [if_pos this]
  rw [hnew, hd]
  simp only [bind_ok]
  exact hident ⟨2, 2, [1, 2, 3, 4]⟩ (by decide) (by decide) (by decide) (by decide)
    (by cases k <;> decide) (by show (2 : Int) * 2 ≤ limit; omega)

/-- C6 (amended) at the 2x3 matrix `[1,2,3,4,5,6]` over `int8` with the
allocation limit `2^45`. -/
theorem C6_MustMul_Identity_witness :
    Matrix.WF ⟨2, 3, [1, 2, 3, 4, 5, 6]⟩ ∧ Matrix.IsValue ⟨2, 3, [1, 2, 3, 4, 5, 6]⟩ ∧
    Matrix.Typed .int8 ⟨2, 3, [1, 2, 3, 4, 5, 6]⟩ ∧ (2 : Int) ^ 45 ≤ maxInt ∧
    (Identity (2 ^ 45) 3 >>= fun I => Matrix.MustMul .int8 (2 ^ 45) ⟨2, 3, [1, 2, 3, 4, 5, 6]⟩ I)
      = .ok ⟨2, 3, [1, 2, 3, 4, 5, 6]⟩ :=
  ⟨by decide, by decide, by decide, by decide,
    (C6_MustMul_Identity .int8 (2 ^ 45) ⟨2, 3, [1, 2, 3, 4, 5, 6]⟩ (by decide) (by decide)
      (by decide) (by decide) (by decide)).1⟩

/-- C7, as stated, fails: for the well-formed `2^32 x 0` and `0 x 2^32`
matrices the inner dimensions agree, but the length `2^32 * 2^32` of the
result wraps to `0`, and the first `Set` on the empty slice panics with a
slice index out of range, whatever the allocation limit is: no matrix is
returned. -/
theorem C7_counterexample :
    Matrix.WF ⟨2 ^ 32, 0, []⟩ ∧ Matrix.IsValue ⟨2 ^ 32, 0, []⟩ ∧
    Matrix.WF ⟨0, 2 ^ 32, []⟩ ∧ Matrix.IsValue ⟨0, 2 ^ 32, []⟩ ∧
    Matrix.Columns ⟨2 ^ 32, 0, []⟩ = Matrix.Rows ⟨0, 2 ^ 32, []⟩ ∧
    ∀ limit : Int,
      Matrix.MustMul .int64 limit ⟨2 ^ 32, 0, []⟩ ⟨0, 2 ^ 32, []⟩
        = .error .indexOutOfRange := by
  refine ⟨by decide, by decide, by decide, by decide, by decide, ?_⟩
  intro limit
  have h0 : imul (2 ^ 32) (2 ^ 32) = 0 := by decide
  unfold Matrix.MustMul
  rw [if_neg (by decide),
    New_nil _ (2 ^ 32) (2 ^ 32) (by rw [h0])
      (by rw [h0]; exact len_le_limitWith _ ([] : List Int)), h0]
  rfl

/-- C7 (amended): for all well-formed matrices `A` and `B` with
`A.Columns = B.Rows` for which `A.Rows * B.Columns` does not exceed the
allocation limit of the runtime (itself a value of `int`), `A.MustMul(B)`
returns a matrix `R` with `R.Rows = A.Rows`, `R.Columns = B.Columns` and, for
every `0 ≤ i < A.Rows` and `0 ≤ j < B.Columns`, `R.At(i, j)` is the sum over
`n` in `[0, A.Columns)` of `A.At(i, n) * B.At(n, j)` accumulated in the
element type, which is the mathematical sum of the products reduced modulo
`2^w` into the element type. -/
theorem C7_MustMul_entries (k : Kind) (limit : Int) (A B : Matrix) (hA : A.WF)
    (hAv : A.IsValue) (hB : B.WF) (hBv : B.IsValue) (hc : A.Columns = B.Rows)
    (hlim : limit ≤ maxInt) (hmax : A.Rows * B.Columns ≤ limit) :
    ∃ R, A.MustMul k limit B = .ok R ∧ R.Rows = A.Rows ∧ R.Columns = B.Columns ∧
      ∀ i j : Int, 0 ≤ i → i < A.Rows → 0 ≤ j → j < B.Columns →
        (∀ n : Int, 0 ≤ n → n < A.Columns →
          A.At i n = .ok (A.elem i n) ∧ B.At n j = .ok (B.elem n j)) ∧
        R.At i j = .ok (sumT k (fun n => k.mul (A.elem i n) (B.elem n j)) A.Columns.toNat) ∧
        R.At i j = .ok (k.wrap (sumTo (fun n => A.elem i n * B.elem n j) A.Columns.toNat)) := by
  obtain ⟨hr0, hc0, hl⟩ := hA
  obtain ⟨_, _, hlen⟩ := hAv
  obtain ⟨_, hc2, hl2⟩ := hB
  obtain ⟨_, _, hlen2⟩ := hBv
  have hmax' : A.Rows * B.Columns ≤ maxInt := by omega
  obtain ⟨R, hmul, hR, hC, hL, hE⟩ := MustMul_ok k limit A B hl hlen hl2 hlen2 hc hr0 hc0 hc2
    hmax' (le_limitWith B.Data (le_limitWith A.Data hmax))
  refine ⟨R, hmul, hR, hC, ?_⟩
  intro i j hi0 hi hj0 hj
  have hat : R.At i j
      = .ok (sumT k (fun n => k.mul (A.elem i n) (B.elem n j)) A.Columns.toNat) := by
    rw [At_ok R i j (by rw [hR, hC]; exact hL) (by rw [hL]; exact hmax')
      (by unfold Matrix.OutOfBounds; rw [hR, hC]; omega),
      hE i j hi0 hj0 hj (lin_lt hi hj0 hj)]
    rfl
  refine ⟨?_, hat, ?_⟩
  · intro n hn0 hn
    exact ⟨At_ok A i n hl hlen (by unfold Matrix.OutOfBounds; omega),
      At_ok B n j hl2 hlen2 (by unfold Matrix.OutOfBounds; omega)⟩
  · rw [hat, sumT_mul_eq]

/-- C7 (amended) at two 2x2 matrices over `int8`, where the entries wrap, with
the allocation limit `2^45`. -/
theorem C7_MustMul_entries_witness :
    Matrix.WF ⟨2, 2, [100, 2, 3, 4]⟩ ∧ Matrix.WF ⟨2, 2, [2, 0, 5, 1]⟩ ∧
    ∃ R, Matrix.MustMul .int8 (2 ^ 45) ⟨2, 2, [100, 2, 3, 4]⟩ ⟨2, 2, [2, 0, 5, 1]⟩ = .ok R ∧
      Matrix.MustMul .int8 (2 ^ 45) ⟨2, 2, [100, 2, 3, 4]⟩ ⟨2, 2, [2, 0, 5, 1]⟩
        = .ok ⟨2, 2, [-46, 2, 26, 4]⟩ ∧
      R.Rows = 2 ∧ R.Columns = 2 :=
  have h := C7_MustMul_entries .int8 (2 ^ 45) ⟨2, 2, [100, 2, 3, 4]⟩ ⟨2, 2, [2, 0, 5, 1]⟩
    (by decide) (by decide) (by decide) (by decide) (by decide) (by decide) (by decide)
  ⟨by decide, by decide, h.elim fun R hR => ⟨R, hR.1, by decide, hR.2.1, hR.2.2.1⟩⟩

/-- C8, as stated, fails: for the well-formed `2^62 x 0` and `0 x 2` matrices
the inner dimensions agree, but the length `2^62 * 2` of the result wraps to
a negative `int` and `make` panics, whatever the allocation limit is, so
`MustMul` fails although `A.Columns = B.Rows`. -/
theorem C8_counterexample :
    Matrix.WF ⟨2 ^ 62, 0, []⟩ ∧ Matrix.IsValue ⟨2 ^ 62, 0, []⟩ ∧
    Matrix.WF ⟨0, 2, []⟩ ∧ Matrix.IsValue ⟨0, 2, []⟩ ∧
    Matrix.Columns ⟨2 ^ 62, 0, []⟩ = Matrix.Rows ⟨0, 2, []⟩ ∧
    ∀ limit : Int,
      Result.isOk (Matrix.MustMul .uint8 limit ⟨2 ^ 62, 0, []⟩ ⟨0, 2, []⟩) = false := by
  refine ⟨by decide, by decide, by decide, by decide, by decide, ?_⟩
  intro limit
  unfold Matrix.MustMul
  rw [if_neg (by decide), New_neg _ (2 ^ 62) 2 [] (Or.inl (by decide))]
  rfl

/-- C8 (amended): for all well-formed matrices `A` and `B`, `A.MustMul(B)`
fails if and only if `A.Columns != B.Rows` or `A.Rows * B.Columns` exceeds
the allocation limit of the runtime (the largest length that `make`
allocates, a value of `int` that is at least the lengths of the operands):
when `A.Columns = B.Rows` and the product is within the limit, none of the
`At`/`Set` calls inside the triple loop and no slice indexing fails, so a full
result is returned; when `A.Columns != B.Rows` the call panics with the
size-mismatch panic and no matrix is returned. -/
theorem C8_MustMul_fails_iff (k : Kind) (limit : Int) (A B : Matrix) (hA : A.WF)
    (hAv : A.IsValue) (hB : B.WF) (hBv : B.IsValue) (hlim : limit ≤ maxInt) :
    ((A.MustMul k limit B).isOk = false ↔
      (A.Columns ≠ B.Rows
        ∨ limitWith (limitWith limit A.Data) B.Data < A.Rows * B.Columns)) ∧
    (A.Columns ≠ B.Rows → A.MustMul k limit B = .error .mulSizes) ∧
    (A.Columns = B.Rows → A.Rows * B.Columns ≤ limit →
      ∃ R, A.MustMul k limit B = .ok R ∧ R.Rows = A.Rows ∧ R.Columns = B.Columns
        ∧ len R.Data = A.Rows * B.Columns) := by
  obtain ⟨hr0, hc0, hl⟩ := hA
  obtain ⟨_, _, hlen⟩ := hAv
  obtain ⟨_, hc2, hl2⟩ := hB
  obtain ⟨_, _, hlen2⟩ := hBv
  have heff : limitWith (limitWith limit A.Data) B.Data ≤ maxInt :=
    limitWith_le B.Data (limitWith_le A.Data hlim hlen) hlen2
  have hne : A.Columns ≠ B.Rows → A.MustMul k limit B = .error .mulSizes := by
    intro h; unfold Matrix.MustMul; rw [if_pos h]
  have hok : A.Columns = B.Rows →
      A.Rows * B.Columns ≤ limitWith (limitWith limit A.Data) B.Data →
      ∃ R, A.MustMul k limit B = .ok R ∧ R.Rows = A.Rows ∧ R.Columns = B.Columns
        ∧ len R.Data = A.Rows * B.Columns := by
    intro hc hmax
    obtain ⟨R, hmul, hR, hC, hL, _⟩ :=
      MustMul_ok k limit A B hl hlen hl2 hlen2 hc hr0 hc0 hc2 (by omega) hmax
    exact ⟨R, hmul, hR, hC, hL⟩
  refine ⟨⟨?_, ?_⟩, hne,
    fun hc hmax => hok hc (le_limitWith B.Data (le_limitWith A.Data hmax))⟩
  · intro hfail
    by_contra hcon
    have h1 : A.Columns = B.Rows := by
      by_contra h; exact hcon (Or.inl h)
    have h2 : A.Rows * B.Columns ≤ limitWith (limitWith limit A.Data) B.Data := by
      by_contra h; exact hcon (Or.inr (by omega))
    obtain ⟨R, hmul, _⟩ := hok h1 h2
    rw [hmul] at hfail
    simp at hfail
  · intro h
    cases hres : A.MustMul k limit B with
    | error e => rfl
    | ok R =>
      obtain ⟨h1, _, _, _, _, h6⟩ := MustMul_shape k limit A B R hr0 hc2 hres
      rcases h with h | h
      · exact absurd h1 h
      · omega

/-- C8 (amended) at a 1x2 and a 2x1 matrix over `uint8` with the allocation
limit `2^45`. -/
theorem C8_MustMul_fails_iff_witness :
    Matrix.WF ⟨1, 2, [3, 4]⟩ ∧ Matrix.IsValue ⟨1, 2, [3, 4]⟩ ∧
    Matrix.WF ⟨2, 1, [5, 6]⟩ ∧ Matrix.IsValue ⟨2, 1, [5, 6]⟩ ∧ (2 : Int) ^ 45 ≤ maxInt ∧
    ((Matrix.MustMul .uint8 (2 ^ 45) ⟨1, 2, [3, 4]⟩ ⟨2, 1, [5, 6]⟩).isOk = false ↔
      (Matrix.Columns ⟨1, 2, [3, 4]⟩ ≠ Matrix.Rows ⟨2, 1, [5, 6]⟩
        ∨ limitWith (limitWith (2 ^ 45) [3, 4]) [5, 6]
            < Matrix.Rows ⟨1, 2, [3, 4]⟩ * Matrix.Columns ⟨2, 1, [5, 6]⟩)) :=
  ⟨by decide, by decide, by decide, by decide, by decide,
    (C8_MustMul_fails_iff .uint8 (2 ^ 45) ⟨1, 2, [3, 4]⟩ ⟨2, 1, [5, 6]⟩ (by decide)
      (by decide) (by decide) (by decide) (by decide)).1⟩

/-- C9: for all well-formed matrices `A` and `B` with the same `Rows` and
`Columns`, `A.MustAdd(B)` returns a matrix `R` with `R.Rows = A.Rows`,
`R.Columns = A.Columns` and `R.At(r, c) = A.At(r, c) + B.At(r, c)` in the
element type for every in-bounds `(r, c)`; equivalently
`R.Data[i] = A.Data[i] + B.Data[i]` for every `i < Rows * Columns`. -/
theorem C9_MustAdd_entries (k : Kind) (limit : Int) (A B : Matrix) (hA : A.WF)
    (hAv : A.IsValue) (hB : B.WF) (hR : A.Rows = B.Rows) (hC : A.Columns = B.Columns) :
    ∃ R, A.MustAdd k limit B = .ok R ∧ R.Rows = A.Rows ∧ R.Columns = A.Columns ∧
      len R.Data = A.Rows * A.Columns ∧
      (∀ i : Int, 0 ≤ i → i < A.Rows * A.Columns →
        ∃ a b, index A.Data i = .ok a ∧ index B.Data i = .ok b
          ∧ index R.Data i = .ok (k.add a b)) ∧
      (∀ r c : Int, ¬ A.OutOfBounds r c →
        ∃ a b, A.At r c = .ok a ∧ B.At r c = .ok b ∧ R.At r c = .ok (k.add a b)) := by
  obtain ⟨_, _, hl⟩ := hA
  obtain ⟨_, _, hlen⟩ := hAv
  obtain ⟨_, _, hl2⟩ := hB
  obtain ⟨d, hadd, hdl, hdv⟩ := MustAdd_ok k limit A B hl hlen hl2 hR hC
  have hlB : len B.Data = len A.Data := by rw [hl, hl2, hR, hC]
  have hld : len d = len A.Data := by unfold len; rw [hdl]
  have hidx : ∀ i : Int, 0 ≤ i → i < A.Rows * A.Columns →
      index A.Data i = .ok (A.Data.getD i.toNat 0) ∧ index B.Data i = .ok (B.Data.getD i.toNat 0)
        ∧ index d i = .ok (k.add (A.Data.getD i.toNat 0) (B.Data.getD i.toNat 0)) := by
    intro i hi0 hi
    rw [← hl] at hi
    refine ⟨index_ok hi0 hi, index_ok hi0 (by rw [hlB]; exact hi), ?_⟩
    rw [index_ok hi0 (by rw [hld]; exact hi), hdv i.toNat (by unfold len at hi; omega)]
  refine ⟨_, hadd, rfl, hC.symm, by rw [hld, hl], ?_, ?_⟩
  · intro i hi0 hi
    exact ⟨_, _, hidx i hi0 hi⟩
  · intro r c hin
    have hinB : ¬ B.OutOfBounds r c := by
      unfold Matrix.OutOfBounds at *; rw [← hR, ← hC]; exact hin
    have hinR : ¬ Matrix.OutOfBounds ⟨A.Rows, B.Columns, d⟩ r c := by
      unfold Matrix.OutOfBounds at *; simp only []; rw [← hC]; exact hin
    obtain ⟨_, h0, h1⟩ := linear_index A r c hl hlen hin
    refine ⟨A.elem r c, B.elem r c, At_ok A r c hl hlen hin,
      At_ok B r c hl2 (by rw [hlB]; exact hlen) hinB, ?_⟩
    rw [At_ok ⟨A.Rows, B.Columns, d⟩ r c (by rw [hld, hl, hC]) (by rw [hld]; exact hlen) hinR]
    show Except.ok (d.getD (r * B.Columns + c).toNat 0) = _
    rw [← hC, hdv _ (by unfold len at h1; omega)]
    show _ = Except.ok (k.add (A.Data.getD (r * A.Columns + c).toNat 0)
      (B.Data.getD (r * B.Columns + c).toNat 0))
    rw [← hC]

/-- C9 at two 2x2 matrices over `int8`, where one sum wraps, with the
allocation limit `2^45`. -/
theorem C9_MustAdd_entries_witness :
    Matrix.WF ⟨2, 2, [100, 2, 3, 4]⟩ ∧ Matrix.IsValue ⟨2, 2, [100, 2, 3, 4]⟩ ∧
    Matrix.WF ⟨2, 2, [100, 20, 30, 40]⟩ ∧
    Matrix.MustAdd .int8 (2 ^ 45) ⟨2, 2, [100, 2, 3, 4]⟩ ⟨2, 2, [100, 20, 30, 40]⟩
      = .ok ⟨2, 2, [-56, 22, 33, 44]⟩ ∧
    ∃ R, Matrix.MustAdd .int8 (2 ^ 45) ⟨2, 2, [100, 2, 3, 4]⟩ ⟨2, 2, [100, 20, 30, 40]⟩
        = .ok R ∧
      R.Rows = 2 ∧ R.Columns = 2 :=
  have h := C9_MustAdd_entries .int8 (2 ^ 45) ⟨2, 2, [100, 2, 3, 4]⟩
    ⟨2, 2, [100, 20, 30, 40]⟩
    (by decide) (by decide) (by decide) (by decide) (by decide)
  ⟨by decide, by decide, by decide, by decide,
    h.elim fun R hR => ⟨R, hR.1, hR.2.1, hR.2.2.1⟩⟩

/-- C10: `MustAdd` is commutative: for all well-formed matrices `A` and `B`
of the same shape over an integer element type, `A.MustAdd(B)` and
`B.MustAdd(A)` both return, and return equal matrices (same `Rows`, `Columns`
and `Data`). -/
theorem C10_MustAdd_comm (k : Kind) (limit : Int) (A B : Matrix) (hA : A.WF)
    (hAv : A.IsValue) (hB : B.WF) (hR : A.Rows = B.Rows) (hC : A.Columns = B.Columns) :
    ∃ R, A.MustAdd k limit B = .ok R ∧ B.MustAdd k limit A = .ok R := by
  obtain ⟨_, _, hl⟩ := hA
  obtain ⟨_, _, hlen⟩ := hAv
  obtain ⟨_, _, hl2⟩ := hB
  have hlB : len B.Data = len A.Data := by rw [hl, hl2, hR, hC]
  obtain ⟨d, hadd, hdl, hdv⟩ := MustAdd_ok k limit A B hl hlen hl2 hR hC
  obtain ⟨e, hadd', hel, hev⟩ := MustAdd_ok k limit B A hl2 (by rw [hlB]; exact hlen) hl
    hR.symm hC.symm
  refine ⟨_, hadd, ?_⟩
  rw [hadd']
  have hde : e = d := by
    unfold len at hlB
    apply ext_getD
    · omega
    · intro i hi
      rw [hev i (by omega), hdv i (by omega), Kind.add_comm]
  rw [hde, hR, hC]

/-- C10 at two 2x2 matrices over `uint8` with the allocation limit `2^45`. -/
theorem C10_MustAdd_comm_witness :
    Matrix.WF ⟨2, 2, [200, 2, 3, 4]⟩ ∧ Matrix.IsValue ⟨2, 2, [200, 2, 3, 4]⟩ ∧
    Matrix.WF ⟨2, 2, [100, 20, 30, 40]⟩ ∧
    ∃ R, Matrix.MustAdd .uint8 (2 ^ 45) ⟨2, 2, [200, 2, 3, 4]⟩ ⟨2, 2, [100, 20, 30, 40]⟩
        = .ok R ∧
      Matrix.MustAdd .uint8 (2 ^ 45) ⟨2, 2, [100, 20, 30, 40]⟩ ⟨2, 2, [200, 2, 3, 4]⟩
        = .ok R :=
  ⟨by decide, by decide, by decide,
    C10_MustAdd_comm .uint8 (2 ^ 45) ⟨2, 2, [200, 2, 3, 4]⟩ ⟨2, 2, [100, 20, 30, 40]⟩
      (by decide) (by decide) (by decide) (by decide) (by decide)⟩

/-! ## Loops that accumulate a sum: `DotProduct` and `Len` -/

/-- A counting loop whose body adds `f j` in the element type returns the
accumulated sum. -/
theorem sum_loop (k : Kind) (n : Int) (f : Int → Int) (body : Int → Int → Result Int)
    (h0 : 0 ≤ n) (hb : ∀ j s, 0 ≤ j → j < n → body j s = .ok (k.add s (f j))) :
    forLoop n body 0 = .ok (sumT k f n.toNat) := by
  obtain ⟨s', hrun, hs'⟩ := forLoop_total n body (fun j s => s = sumT k f j.toNat) 0 h0 rfl
    (by
      intro j s hj0 hj hs
      refine ⟨k.add s (f j), hb j s hj0 hj, ?_⟩
      have e : (j + 1).toNat = j.toNat + 1 := by omega
      have e' : ((j.toNat : Nat) : Int) = j := by omega
      dsimp only
      rw [e, sumT, ← hs, e'])
  rw [hrun, hs']

/-- A counting loop in which every iteration either keeps the invariant or
panics with `e` either returns with the invariant or panics with `e`. -/
theorem forLoopFrom_ok_or_error {σ : Type} (body : Int → σ → Result σ)
    (Inv : Int → σ → Prop) (e : Panic) :
    ∀ (fuel : Nat) (i : Int) (s : σ), Inv i s →
      (∀ j t, i ≤ j → j < i + fuel → Inv j t →
        (∃ t', body j t = .ok t' ∧ Inv (j + 1) t') ∨ body j t = .error e) →
      (∃ s', forLoopFrom body fuel i s = .ok s' ∧ Inv (i + fuel) s')
        ∨ forLoopFrom body fuel i s = .error e := by
  intro fuel
  induction fuel with
  | zero => intro i s h _; exact Or.inl ⟨s, rfl, by simpa using h⟩
  | succ n ih =>
    intro i s h hstep
    rcases hstep i s (le_refl _) (by push_cast; omega) h with ⟨t', hb, hinv⟩ | herr
    · rcases ih (i + 1) t' hinv (by
        intro j t h1 h2 h3
        exact hstep j t (by omega) (by push_cast; omega) h3) with ⟨s', hs', hfin⟩ | herr
      · left
        refine ⟨s', ?_, ?_⟩
        · simp only [forLoopFrom, hb]; exact hs'
        · have : i + ((n + 1 : Nat) : Int) = i + 1 + (n : Int) := by push_cast; ring
          rw [this]; exact hfin
      · right
        simp only [forLoopFrom, hb]; exact herr
    · right
      simp only [forLoopFrom, herr]

theorem forLoop_ok_or_error {σ : Type} (n : Int) (body : Int → σ → Result σ)
    (Inv : Int → σ → Prop) (e : Panic) (s : σ) (hn : 0 ≤ n) (h0 : Inv 0 s)
    (hstep : ∀ j t, 0 ≤ j → j < n → Inv j t →
      (∃ t', body j t = .ok t' ∧ Inv (j + 1) t') ∨ body j t = .error e) :
    (∃ s', forLoop n body s = .ok s' ∧ Inv n s') ∨ forLoop n body s = .error e := by
  have := forLoopFrom_ok_or_error body Inv e n.toNat 0 s h0 (by
    intro j t h1 h2 h3
    exact hstep j t h1 (by omega) h3)
  have e' : (0 : Int) + (n.toNat : Int) = n := by omega
  rw [e'] at this
  exact this

/-! ## `DotProduct` and `Len` -/

/-- The term that `DotProduct` adds at index `i`. -/
theorem dot_body (k : Kind) (d d2 : List Int) (j s : Int) (hj0 : 0 ≤ j) (hj : j < len d2) :
    (do
      let w ← index d2 j
      pure (k.add s (k.mul (d.getD j.toNat 0) w)) : Result Int)
      = .ok (k.add s (k.mul (d.getD j.toNat 0) (d2.getD j.toNat 0))) := by
  rw [index_ok hj0 hj]; rfl

/-- When both operands have one column and the second slice is at least as
long as the first, `DotProduct` returns the accumulated sum of products. -/
theorem DotProduct_ok (k : Kind) (m m2 : Matrix) (hc : m.Columns = 1) (hc2 : m2.Columns = 1)
    (hle : len m.Data ≤ len m2.Data) :
    m.DotProduct k m2
      = .ok (sumT k (fun i => k.mul (m.Data.getD i.toNat 0) (m2.Data.getD i.toNat 0))
          m.Data.length) := by
  unfold Matrix.DotProduct
  rw [if_neg (by simp [hc, hc2]), rangeLoop_eq]
  have := sum_loop k (len m.Data)
    (fun i => k.mul (m.Data.getD i.toNat 0) (m2.Data.getD i.toNat 0))
    (fun j s => do
      let w ← index m2.Data j
      pure (k.add s (k.mul (m.Data.getD j.toNat 0) w))) (len_nonneg _)
    (fun j s hj0 hj => dot_body k m.Data m2.Data j s hj0 (by omega))
  rw [this]
  unfold len
  simp

/-- Whenever `DotProduct` returns, both operands have one column and the
second slice is at least as long as the first. -/
theorem DotProduct_shape (k : Kind) (m m2 : Matrix) (s : Int)
    (h : m.DotProduct k m2 = .ok s) :
    m.Columns = 1 ∧ m2.Columns = 1 ∧ len m.Data ≤ len m2.Data := by
  unfold Matrix.DotProduct at h
  by_cases hcol : m.Columns ≠ 1 ∨ m2.Columns ≠ 1
  · rw [if_pos hcol] at h; cases h
  · rw [if_neg hcol, rangeLoop_eq] at h
    have key := forLoop_inv_of_ok (len m.Data) _ (fun j _ => j ≤ len m2.Data) 0 s
      (len_nonneg _) (len_nonneg _)
      (by
        intro j t t' hj0 _ _ hb
        by_cases hlt : j < len m2.Data
        · omega
        · rw [index_error (Or.inr (by omega))] at hb
          cases hb) h
    refine ⟨?_, ?_, key⟩ <;> by_contra hne <;> exact hcol (by tauto)

/-- A `DotProduct` whose operands have one column panics, when the second
slice is shorter than the first, with a slice index out of range. -/
theorem DotProduct_short (k : Kind) (m m2 : Matrix) (hc : m.Columns = 1)
    (hc2 : m2.Columns = 1) (hlt : len m2.Data < len m.Data) :
    m.DotProduct k m2 = .error .indexOutOfRange := by
  cases hres : m.DotProduct k m2 with
  | ok s =>
    have := (DotProduct_shape k m m2 s hres).2.2
    omega
  | error e =>
    unfold Matrix.DotProduct at hres
    rw [if_neg (by simp [hc, hc2]), rangeLoop_eq] at hres
    rcases forLoop_ok_or_error (len m.Data) (fun j t => do
        let w ← index m2.Data j
        pure (k.add t (k.mul (m.Data.getD j.toNat 0) w)))
      (fun _ _ => True) .indexOutOfRange 0 (len_nonneg _) trivial
      (by
        intro j t hj0 _ _
        by_cases hj : j < len m2.Data
        · exact Or.inl ⟨_, dot_body k m.Data m2.Data j t hj0 hj, trivial⟩
        · right
          dsimp only
          rw [index_error (Or.inr (by omega))]
          rfl) with ⟨s', hok, _⟩ | herr
    · rw [hok] at hres; cases hres
    · rw [herr] at hres
      injection hres with hres
      rw [hres]

/-- For a matrix with one column `Len` returns the conversion of the
accumulated sum of squares. -/
theorem Len_ok (k : Kind) (conv : Int → Int) (m : Matrix) (hc : m.Columns = 1) :
    m.Len k conv
      = .ok (conv (sumT k (fun i => k.mul (m.Data.getD i.toNat 0) (m.Data.getD i.toNat 0))
          m.Data.length)) := by
  unfold Matrix.Len
  rw [if_neg (by simp [hc]), rangeLoop_eq]
  have := sum_loop k (len m.Data)
    (fun i => k.mul (m.Data.getD i.toNat 0) (m.Data.getD i.toNat 0))
    (fun j s => pure (k.add s (k.mul (m.Data.getD j.toNat 0) (m.Data.getD j.toNat 0))))
    (len_nonneg _) (fun j s _ _ => rfl)
  rw [this]
  unfold len
  simp

theorem Len_error (k : Kind) (conv : Int → Int) (m : Matrix) (hc : m.Columns ≠ 1) :
    m.Len k conv = .error .lenColumns := by
  unfold Matrix.Len
  rw [if_pos hc]

/-! ## Claims about `MustAdd`, `Scale`, `DotProduct` and `Len` -/

/-- C11: for all well-formed matrices `A` and `B`, `A.MustAdd(B)` fails if and
only if `A.Rows != B.Rows` or `A.Columns != B.Columns`: when the shapes agree
every index into `B.Data` and into the result is in range and a matrix of
that shape is returned, and when they differ the call panics with the
size-mismatch panic and no matrix is returned. -/
theorem C11_MustAdd_fails_iff (k : Kind) (limit : Int) (A B : Matrix) (hA : A.WF)
    (hAv : A.IsValue) (hB : B.WF) :
    ((A.MustAdd k limit B).isOk = false ↔ (A.Rows ≠ B.Rows ∨ A.Columns ≠ B.Columns)) ∧
    ((A.Rows ≠ B.Rows ∨ A.Columns ≠ B.Columns) →
      A.MustAdd k limit B = .error .addSizes) ∧
    (A.Rows = B.Rows → A.Columns = B.Columns →
      ∃ R, A.MustAdd k limit B = .ok R ∧ R.Rows = A.Rows ∧ R.Columns = A.Columns
        ∧ len R.Data = len A.Data ∧ len B.Data = len A.Data) := by
  obtain ⟨_, _, hl⟩ := hA
  obtain ⟨_, _, hlen⟩ := hAv
  obtain ⟨_, _, hl2⟩ := hB
  have hne : (A.Rows ≠ B.Rows ∨ A.Columns ≠ B.Columns) →
      A.MustAdd k limit B = .error .addSizes := by
    intro h; unfold Matrix.MustAdd; rw [if_pos h]
  have hok : A.Rows = B.Rows → A.Columns = B.Columns →
      ∃ R, A.MustAdd k limit B = .ok R ∧ R.Rows = A.Rows ∧ R.Columns = A.Columns
        ∧ len R.Data = len A.Data ∧ len B.Data = len A.Data := by
    intro hR hC
    obtain ⟨d, hadd, hdl, _⟩ := MustAdd_ok k limit A B hl hlen hl2 hR hC
    exact ⟨_, hadd, rfl, hC.symm, by unfold len; rw [hdl], by rw [hl, hl2, hR, hC]⟩
  refine ⟨⟨?_, ?_⟩, hne, hok⟩
  · intro hfail
    by_contra hcon
    have h1 : A.Rows = B.Rows := by
      by_contra h; exact hcon (Or.inl h)
    have h2 : A.Columns = B.Columns := by
      by_contra h; exact hcon (Or.inr h)
    obtain ⟨R, hadd, _⟩ := hok h1 h2
    rw [hadd] at hfail
    simp at hfail
  · intro h
    rw [hne h]; rfl

/-- C11 at a 2x2 and a 2x1 matrix over `int16`, whose shapes differ, with the
allocation limit `2^45`. -/
theorem C11_MustAdd_fails_iff_witness :
    Matrix.WF ⟨2, 2, [1, 2, 3, 4]⟩ ∧ Matrix.IsValue ⟨2, 2, [1, 2, 3, 4]⟩ ∧
    Matrix.WF ⟨2, 1, [5, 6]⟩ ∧
    Matrix.MustAdd .int16 (2 ^ 45) ⟨2, 2, [1, 2, 3, 4]⟩ ⟨2, 1, [5, 6]⟩ = .error .addSizes :=
  ⟨by decide, by decide, by decide,
    (C11_MustAdd_fails_iff .int16 (2 ^ 45) ⟨2, 2, [1, 2, 3, 4]⟩ ⟨2, 1, [5, 6]⟩ (by decide)
      (by decide) (by decide)).2.1 (by decide)⟩

/-- C12: for every matrix `M` and scalar `s`, `M.Scale(s)` returns a matrix
`M'` with `M'.Rows = M.Rows`, `M'.Columns = M.Columns`,
`len(M'.Data) = len(M.Data)` and `M'.Data[i] = M.Data[i] * s` in the element
type; and for every in-bounds `(r, c)` of a well-formed `M`,
`M'.At(r, c) = M.At(r, c) * s` in the element type. -/
theorem C12_Scale (k : Kind) (limit : Int) (M : Matrix) (s : Int) :
    ∃ M', M.Scale k limit s = .ok M' ∧ M'.Rows = M.Rows ∧ M'.Columns = M.Columns ∧
      len M'.Data = len M.Data ∧
      (∀ i : Int, 0 ≤ i → i < len M.Data →
        ∃ a, index M.Data i = .ok a ∧ index M'.Data i = .ok (k.mul a s)) ∧
      (len M.Data = M.Rows * M.Columns → len M.Data ≤ maxInt →
        ∀ r c : Int, ¬ M.OutOfBounds r c →
          ∃ a, M.At r c = .ok a ∧ M'.At r c = .ok (k.mul a s)) := by
  obtain ⟨d, hok, hdl, hdv⟩ := Scale_ok k limit M s
  have hld : len d = len M.Data := by unfold len; rw [hdl]
  refine ⟨_, hok, rfl, rfl, hld, ?_, ?_⟩
  · intro i hi0 hi
    refine ⟨_, index_ok hi0 hi, ?_⟩
    show index d i = _
    rw [index_ok hi0 (by rw [hld]; exact hi), hdv i.toNat (by unfold len at hi; omega)]
  · intro hl hlen r c hin
    obtain ⟨_, h0, h1⟩ := linear_index M r c hl hlen hin
    refine ⟨M.elem r c, At_ok M r c hl hlen hin, ?_⟩
    rw [At_ok ⟨M.Rows, M.Columns, d⟩ r c (by rw [hld]; exact hl) (by rw [hld]; exact hlen) hin]
    show Except.ok (d.getD (r * M.Columns + c).toNat 0) = _
    rw [hdv _ (by unfold len at h1; omega)]
    rfl

/-- C12 at the 2x2 matrix `[100, 2, 3, 4]` over `int8` and the scalar `2`,
where one product wraps, with the allocation limit `2^45`. -/
theorem C12_Scale_witness :
    Matrix.Scale .int8 (2 ^ 45) ⟨2, 2, [100, 2, 3, 4]⟩ 2 = .ok ⟨2, 2, [-56, 4, 6, 8]⟩ ∧
    ∃ M', Matrix.Scale .int8 (2 ^ 45) ⟨2, 2, [100, 2, 3, 4]⟩ 2 = .ok M' ∧ M'.Rows = 2 ∧
      M'.Columns = 2 :=
  ⟨by decide, (C12_Scale .int8 (2 ^ 45) ⟨2, 2, [100, 2, 3, 4]⟩ 2).elim
    fun M' h => ⟨M', h.1, h.2.1, h.2.2.1⟩⟩

/-- C13: for all well-formed column vectors `a` and `b` (`Columns = 1`) with
`a.Rows ≤ b.Rows`, `a.DotProduct(b)` returns the sum over `i` in
`[0, a.Rows)` of `a.Data[i] * b.Data[i]` accumulated in the element type,
which is the mathematical sum reduced modulo `2^w`; the elements of `b` at
positions `≥ a.Rows` do not influence the result; and the dot product of
`[1,2,3]` and `[4,5,6]` is `32`. -/
theorem C13_DotProduct (k : Kind) (a b : Matrix) (ha : a.WF) (hb : b.WF)
    (hca : a.Columns = 1) (hcb : b.Columns = 1) (hle : a.Rows ≤ b.Rows) :
    a.DotProduct k b
      = .ok (sumT k (fun i => k.mul (a.Data.getD i.toNat 0) (b.Data.getD i.toNat 0))
          a.Rows.toNat) ∧
    a.DotProduct k b
      = .ok (k.wrap (sumTo (fun i => a.Data.getD i.toNat 0 * b.Data.getD i.toNat 0)
          a.Rows.toNat)) ∧
    (∀ b' : Matrix, b'.WF → b'.Columns = 1 → a.Rows ≤ b'.Rows →
      (∀ i : Nat, (i : Int) < a.Rows → b'.Data.getD i 0 = b.Data.getD i 0) →
      a.DotProduct k b' = a.DotProduct k b) ∧
    Matrix.DotProduct k ⟨3, 1, [1, 2, 3]⟩ ⟨3, 1, [4, 5, 6]⟩ = .ok 32 := by
  obtain ⟨_, _, hl⟩ := ha
  obtain ⟨_, _, hl2⟩ := hb
  rw [hca, Int.mul_one] at hl
  rw [hcb, Int.mul_one] at hl2
  have hn : a.Rows.toNat = a.Data.length := by unfold len at hl; omega
  have h1 := DotProduct_ok k a b hca hcb (by omega)
  rw [← hn] at h1
  refine ⟨h1, ?_, ?_, by cases k <;> decide⟩
  · rw [h1, sumT_mul_eq]
  · intro b' ⟨_, _, hl'⟩ hcb' hle' hsame
    rw [hcb', Int.mul_one] at hl'
    have h2 := DotProduct_ok k a b' hca hcb' (by omega)
    rw [← hn] at h2
    rw [h1, h2, sumT_mul_eq, sumT_mul_eq]
    congr 2
    apply sumTo_congr
    intro i hi
    dsimp only
    have e : ((i : Nat) : Int).toNat = i := by omega
    rw [e, hsame i (by omega)]

/-- C13 at the column vectors `[1,2,3]` and `[4,5,6,7]` over `uint8`. -/
theorem C13_DotProduct_witness :
    Matrix.WF ⟨3, 1, [1, 2, 3]⟩ ∧ Matrix.WF ⟨4, 1, [4, 5, 6, 7]⟩ ∧
    Matrix.DotProduct .uint8 ⟨3, 1, [1, 2, 3]⟩ ⟨4, 1, [4, 5, 6, 7]⟩ = .ok 32 ∧
    Matrix.DotProduct .uint8 ⟨3, 1, [1, 2, 3]⟩ ⟨4, 1, [4, 5, 6, 7]⟩
      = .ok (sumT .uint8 (fun i => Kind.mul .uint8 ([1, 2, 3].getD i.toNat 0)
          ([4, 5, 6, 7].getD i.toNat 0)) (3 : Int).toNat) :=
  ⟨by decide, by decide, by decide,
    (C13_DotProduct .uint8 ⟨3, 1, [1, 2, 3]⟩ ⟨4, 1, [4, 5, 6, 7]⟩ (by decide) (by decide)
      (by decide) (by decide) (by decide)).1⟩

/-- C14: for all matrices `a` and `b`, `a.DotProduct(b)` fails if and only if
`a.Columns != 1` or `b.Columns != 1` or `len(b.Data) < len(a.Data)`: a wrong
column count is the explicit panic, a shorter second operand is a slice index
out of range, and a second operand that is at least as long succeeds, so
there is no equal-row-count check. -/
theorem C14_DotProduct_fails_iff (k : Kind) (a b : Matrix) :
    ((a.DotProduct k b).isOk = false ↔
      (a.Columns ≠ 1 ∨ b.Columns ≠ 1 ∨ len b.Data < len a.Data)) ∧
    ((a.Columns ≠ 1 ∨ b.Columns ≠ 1) → a.DotProduct k b = .error .dotColumns) ∧
    (a.Columns = 1 → b.Columns = 1 → len b.Data < len a.Data →
      a.DotProduct k b = .error .indexOutOfRange) ∧
    (a.Columns = 1 → b.Columns = 1 → len a.Data ≤ len b.Data →
      ∃ s, a.DotProduct k b = .ok s) := by
  have hcol : (a.Columns ≠ 1 ∨ b.Columns ≠ 1) → a.DotProduct k b = .error .dotColumns := by
    intro h; unfold Matrix.DotProduct; rw [if_pos h]
  refine ⟨⟨?_, ?_⟩, hcol, DotProduct_short k a b,
    fun h1 h2 h3 => ⟨_, DotProduct_ok k a b h1 h2 h3⟩⟩
  · intro hfail
    by_contra hcon
    have h1 : a.Columns = 1 := by
      by_contra h; exact hcon (Or.inl h)
    have h2 : b.Columns = 1 := by
      by_contra h; exact hcon (Or.inr (Or.inl h))
    have h3 : len a.Data ≤ len b.Data := by
      by_contra h; exact hcon (Or.inr (Or.inr (by omega)))
    rw [DotProduct_ok k a b h1 h2 h3] at hfail
    simp at hfail
  · intro h
    cases hres : a.DotProduct k b with
    | error e => rfl
    | ok s =>
      obtain ⟨h1, h2, h3⟩ := DotProduct_shape k a b s hres
      rcases h with h | h | h
      · exact absurd h1 h
      · exact absurd h2 h
      · omega

/-- C14 at a longer first and a shorter second operand over `int32`. -/
theorem C14_DotProduct_fails_iff_witness :
    Matrix.WF ⟨3, 1, [1, 2, 3]⟩ ∧ Matrix.WF ⟨2, 1, [4, 5]⟩ ∧
    Matrix.DotProduct .int32 ⟨3, 1, [1, 2, 3]⟩ ⟨2, 1, [4, 5]⟩ = .error .indexOutOfRange ∧
    ∃ s, Matrix.DotProduct .int32 ⟨2, 1, [4, 5]⟩ ⟨3, 1, [1, 2, 3]⟩ = .ok s :=
  ⟨by decide, by decide,
    (C14_DotProduct_fails_iff .int32 ⟨3, 1, [1, 2, 3]⟩ ⟨2, 1, [4, 5]⟩).2.2.1
      (by decide) (by decide) (by decide),
    ⟨14, by decide⟩⟩

/-- C20: for every column vector `m`, the sum of squares that `Len`
accumulates is `m.DotProduct(m)`, so `m.Len()` is the conversion of
`m.DotProduct(m)` for every conversion-and-square-root function, and `Len`
fails exactly when `m.DotProduct(m)` fails, namely when `m.Columns != 1`. -/
theorem C20_Len_DotProduct (k : Kind) (conv : Int → Int) (m : Matrix) :
    ((m.Len k conv).isOk = false ↔ (m.DotProduct k m).isOk = false) ∧
    ((m.Len k conv).isOk = false ↔ m.Columns ≠ 1) ∧
    (∀ s, m.DotProduct k m = .ok s → m.Len k conv = .ok (conv s)) ∧
    (m.Columns = 1 → ∃ s, m.DotProduct k m = .ok s ∧ m.Len k conv = .ok (conv s)) := by
  by_cases hc : m.Columns = 1
  · have hd := DotProduct_ok k m m hc hc (le_refl _)
    have hL := Len_ok k conv m hc
    refine ⟨?_, ?_, ?_, fun _ => ⟨_, hd, hL⟩⟩
    · rw [hd, hL]; simp
    · rw [hL]; simp [hc]
    · intro s hs
      rw [hd] at hs
      injection hs with hs
      rw [hL, hs]
  · have hd : m.DotProduct k m = .error .dotColumns := by
      unfold Matrix.DotProduct; rw [if_pos (Or.inl hc)]
    have hL := Len_error k conv m hc
    refine ⟨?_, ?_, ?_, fun h => absurd h hc⟩
    · rw [hd, hL]; simp
    · rw [hL]; simp [hc]
    · intro s hs
      rw [hd] at hs; cases hs

/-- C20 at the column vector `[3, 4]` over `int64` with a conversion that
maps `25` to `5`. -/
theorem C20_Len_DotProduct_witness :
    Matrix.DotProduct .int64 ⟨2, 1, [3, 4]⟩ ⟨2, 1, [3, 4]⟩ = .ok 25 ∧
    Matrix.Len .int64 (fun s => if s = 25 then 5 else 0) ⟨2, 1, [3, 4]⟩ = .ok 5 :=
  ⟨by decide,
    (C20_Len_DotProduct .int64 (fun s => if s = 25 then 5 else 0) ⟨2, 1, [3, 4]⟩).2.2.1
      25 (by decide)⟩

/-! ## Sums and congruences for the algebraic laws -/

theorem sumTo_eq_sum (f : Int → Int) (n : Nat) :
    sumTo f n = ∑ i in Finset.range n, f i := by
  induction n with
  | zero => simp [sumTo]
  | succ n ih => rw [sumTo, ih, Finset.sum_range_succ]

theorem sumTo_modEq (M : Int) (f g : Int → Int) (n : Nat)
    (h : ∀ i : Nat, i < n → f i ≡ g i [ZMOD M]) : sumTo f n ≡ sumTo g n [ZMOD M] := by
  induction n with
  | zero => exact Int.ModEq.refl _
  | succ n ih =>
    simp only [sumTo]
    exact (ih (fun i hi => h i (by omega))).add (h n (by omega))

/-- Sums whose terms are congruent modulo `2^w` reduce to the same value of
the element type. -/
theorem wrap_sumTo_congr (k : Kind) (f g : Int → Int) (n : Nat)
    (h : ∀ i : Nat, i < n → f i ≡ g i [ZMOD 2 ^ k.bits]) :
    k.wrap (sumTo f n) = k.wrap (sumTo g n) :=
  k.wrap_congr (sumTo_modEq _ f g n h)

theorem sumTo_add (f g : Int → Int) (n : Nat) :
    sumTo (fun i => f i + g i) n = sumTo f n + sumTo g n := by
  induction n with
  | zero => simp [sumTo]
  | succ n ih => simp only [sumTo]; rw [ih]; ring

theorem sumTo_mul_right (f : Int → Int) (s : Int) (n : Nat) :
    sumTo (fun i => f i * s) n = sumTo f n * s := by
  induction n with
  | zero => simp [sumTo]
  | succ n ih => simp only [sumTo]; rw [ih]; ring

/-- Exchange of the two summations in a product of three matrices. -/
theorem sumTo_assoc (a c : Int → Int) (b : Int → Int → Int) (K N : Nat) :
    sumTo (fun n => sumTo (fun m => a m * b m n) K * c n) N
      = sumTo (fun m => a m * sumTo (fun n => b m n * c n) N) K := by
  rw [sumTo_eq_sum, sumTo_eq_sum]
  have h1 : ∀ n : Nat, sumTo (fun m => a m * b m n) K * c n
      = ∑ m in Finset.range K, a m * b m n * c n := by
    intro n; rw [sumTo_eq_sum, Finset.sum_mul]
  have h2 : ∀ m : Nat, a m * sumTo (fun n => b m n * c n) N
      = ∑ n in Finset.range N, a m * b m n * c n := by
    intro m; rw [sumTo_eq_sum, Finset.mul_sum]
    apply Finset.sum_congr rfl
    intro n _; ring
  rw [Finset.sum_congr rfl (fun n _ => h1 n), Finset.sum_congr rfl (fun m _ => h2 m)]
  exact Finset.sum_comm

theorem mulEntry_eq_wrap (k : Kind) (m m2 : Matrix) (i j : Int) :
    m.mulEntry k m2 i j
      = k.wrap (sumTo (fun n => m.elem i n * m2.elem n j) m.Columns.toNat) := by
  unfold Matrix.mulEntry
  exact sumT_mul_eq k _ _ _

/-! ## Equality of matrices from their entries -/

/-- Two matrices of the same shape whose slices have `Rows * Columns` elements
and whose entries agree at every position are equal. -/
theorem Matrix.ext_elem (m m' : Matrix) (hR : m'.Rows = m.Rows) (hC : m'.Columns = m.Columns)
    (hc0 : 0 ≤ m.Columns) (hl : len m.Data = m.Rows * m.Columns)
    (hl' : len m'.Data = m.Rows * m.Columns)
    (h : ∀ r c : Int, 0 ≤ r → r < m.Rows → 0 ≤ c → c < m.Columns →
      m'.elem r c = m.elem r c) : m' = m := by
  obtain ⟨R, C, D⟩ := m
  obtain ⟨R', C', D'⟩ := m'
  simp only at hR hC hc0 hl hl' h
  subst hR; subst hC
  congr 1
  unfold len at hl hl'
  apply ext_getD
  · omega
  · intro p hp
    obtain ⟨r, c, h1, h2, h3, h4, h5⟩ := lin_decomp (p := (p : Int)) (R := R') (C := C')
      (by omega) (by omega) hc0
    have ep : p = (r * C' + c).toNat := by omega
    rw [ep]
    exact h r c h1 h2 h3 h4

/-! ## The outcome of a failing `MustMul` -/

/-- For well-formed operands with agreeing inner dimensions a failing
`MustMul` panics in `make` when the wrapped length is negative or beyond the
allocation limit, and with a slice index out of range otherwise. -/
theorem MustMul_error_kind (k : Kind) (limit : Int) (m m2 : Matrix) (e : Panic)
    (hm : len m.Data = m.Rows * m.Columns) (hml : len m.Data ≤ maxInt)
    (hm2 : len m2.Data = m2.Rows * m2.Columns) (hm2l : len m2.Data ≤ maxInt)
    (hc : m.Columns = m2.Rows) (hr0 : 0 ≤ m.Rows) (hc0 : 0 ≤ m.Columns)
    (hc2 : 0 ≤ m2.Columns) (h : m.MustMul k limit m2 = .error e) :
    e = if imul m.Rows m2.Columns < 0
          ∨ limitWith (limitWith limit m.Data) m2.Data < imul m.Rows m2.Columns
        then .makesliceLen else .indexOutOfRange := by
  unfold Matrix.MustMul at h
  rw [if_neg (by simpa using hc)] at h
  by_cases hneg : imul m.Rows m2.Columns < 0
      ∨ limitWith (limitWith limit m.Data) m2.Data < imul m.Rows m2.Columns
  · rw [New_neg _ _ _ _ hneg] at h
    rw [if_pos hneg]
    injection h with h
    exact h.symm
  · rw [if_neg hneg]
    rw [New_nil _ _ _ (by omega) (by omega)] at h
    simp only [bind_ok] at h
    rcases forLoop_ok_or_error m.Rows (fun i (ma : Matrix) =>
        forLoop m2.Columns (fun j (ma : Matrix) => do
          let s ← forLoop m.Columns (fun n s => do
            let a ← m.At i n
            let b ← m2.At n j
            pure (k.add s (k.mul a b))) 0
          ma.Set i j s) ma)
      (fun _ (t : Matrix) => t.Rows = m.Rows ∧ t.Columns = m2.Columns) .indexOutOfRange
      ⟨m.Rows, m2.Columns, List.replicate (imul m.Rows m2.Columns).toNat 0⟩ hr0 ⟨rfl, rfl⟩
      (by
        intro i t hi0 hi ⟨hR, hC⟩
        rcases forLoop_ok_or_error m2.Columns (fun j (ma : Matrix) => do
            let s ← forLoop m.Columns (fun n s => do
              let a ← m.At i n
              let b ← m2.At n j
              pure (k.add s (k.mul a b))) 0
            ma.Set i j s)
          (fun _ (u : Matrix) => u.Rows = m.Rows ∧ u.Columns = m2.Columns)
          .indexOutOfRange t hc2
          ⟨hR, hC⟩
          (by
            intro j u hj0 hj ⟨hR', hC'⟩
            dsimp only
            rw [MustMul_inner k m m2 i j hm hml hm2 hm2l hc hc0 hi0 hi hj0 hj]
            simp only [bind_ok]
            have hin : ¬ (i < 0 ∨ j < 0 ∨ i ≥ u.Rows ∨ j ≥ u.Columns) := by
              rw [hR', hC']; omega
            unfold Matrix.Set
            rw [if_neg hin]
            by_cases hidx : iadd (imul i u.Columns) j < 0
                ∨ len u.Data ≤ iadd (imul i u.Columns) j
            · right
              rw [store_error _ hidx]; rfl
            · left
              rw [store_ok _ (by omega) (by omega)]
              exact ⟨_, rfl, hR', hC'⟩) with ⟨t', hok, hinv⟩ | herr
        · exact Or.inl ⟨t', hok, hinv⟩
        · exact Or.inr herr) with ⟨s', hok, _⟩ | herr
    · rw [hok] at h; cases h
    · rw [herr] at h
      injection h with h
      exact h.symm

/-! ## The entries of a product -/

/-- When the operands are well formed, the inner dimensions agree and the
length of the result is a value of `int` within the allocation limit,
`MustMul` returns a well-formed matrix whose entries are the sums of products
reduced into the element type. -/
theorem MustMul_entries (k : Kind) (limit : Int) (m m2 : Matrix)
    (hm : len m.Data = m.Rows * m.Columns) (hml : len m.Data ≤ maxInt)
    (hm2 : len m2.Data = m2.Rows * m2.Columns) (hm2l : len m2.Data ≤ maxInt)
    (hc : m.Columns = m2.Rows) (hr0 : 0 ≤ m.Rows) (hc0 : 0 ≤ m.Columns)
    (hc2 : 0 ≤ m2.Columns) (hmax : m.Rows * m2.Columns ≤ maxInt)
    (hlimit : m.Rows * m2.Columns ≤ limitWith (limitWith limit m.Data) m2.Data) :
    ∃ ma, m.MustMul k limit m2 = .ok ma ∧ ma.Rows = m.Rows ∧ ma.Columns = m2.Columns
      ∧ len ma.Data = m.Rows * m2.Columns
      ∧ ∀ r c : Int, 0 ≤ r → r < m.Rows → 0 ≤ c → c < m2.Columns →
          ma.elem r c = k.wrap (sumTo (fun n => m.elem r n * m2.elem n c) m.Columns.toNat) := by
  obtain ⟨ma, hmul, hR, hC, hL, hE⟩ :=
    MustMul_ok k limit m m2 hm hml hm2 hm2l hc hr0 hc0 hc2 hmax hlimit
  refine ⟨ma, hmul, hR, hC, hL, ?_⟩
  intro r c h1 h2 h3 h4
  rw [hE r c h1 h3 h4 (lin_lt h2 h3 h4), mulEntry_eq_wrap]

/-! ## Claims about the algebraic laws of `MustMul` -/

/-- C16, as stated, fails: for the well-formed `2^32 x 0`, `0 x 2^32` and
`2^32 x 0` matrices the dimensions chain, but `A.MustMul(B)` needs a result
of `2^32 * 2^32` elements, a length that wraps to `0`, and panics with a
slice index out of range, whatever the allocation limit is, so
`A.MustMul(B).MustMul(C)` fails. -/
theorem C16_counterexample :
    Matrix.WF ⟨2 ^ 32, 0, []⟩ ∧ Matrix.IsValue ⟨2 ^ 32, 0, []⟩ ∧
    Matrix.WF ⟨0, 2 ^ 32, []⟩ ∧ Matrix.IsValue ⟨0, 2 ^ 32, []⟩ ∧
    ∀ limit : Int,
      (Matrix.MustMul .int32 limit ⟨2 ^ 32, 0, []⟩ ⟨0, 2 ^ 32, []⟩ >>=
        fun AB => AB.MustMul .int32 limit ⟨2 ^ 32, 0, []⟩) = .error .indexOutOfRange := by
  refine ⟨by decide, by decide, by decide, by decide, ?_⟩
  intro limit
  have h0 : imul (2 ^ 32) (2 ^ 32) = 0 := by decide
  have h : Matrix.MustMul .int32 limit ⟨2 ^ 32, 0, []⟩ ⟨0, 2 ^ 32, []⟩
      = .error .indexOutOfRange := by
    unfold Matrix.MustMul
    rw [if_neg (by decide),
      New_nil _ (2 ^ 32) (2 ^ 32) (by rw [h0])
        (by rw [h0]; exact len_le_limitWith _ ([] : List Int)), h0]
    rfl
  rw [h]
  rfl

/-- C16 (amended): `MustMul` is associative: for all well-formed matrices
`A`, `B`, `C` over an integer element type with `A.Columns = B.Rows` and
`B.Columns = C.Rows` for which `A.Rows * B.Columns`, `B.Rows * C.Columns` and
`A.Rows * C.Columns` do not exceed the allocation limit of the runtime
(itself a value of `int`), neither `A.MustMul(B).MustMul(C)` nor
`A.MustMul(B.MustMul(C))` fails, and the two results are equal (same `Rows`,
`Columns` and `Data`). -/
theorem C16_MustMul_assoc (k : Kind) (limit : Int) (A B C : Matrix)
    (hA : A.WF) (hAv : A.IsValue) (hB : B.WF) (hBv : B.IsValue) (hC : C.WF)
    (hCv : C.IsValue) (h1 : A.Columns = B.Rows) (h2 : B.Columns = C.Rows)
    (hlim : limit ≤ maxInt)
    (hAB : A.Rows * B.Columns ≤ limit) (hBC : B.Rows * C.Columns ≤ limit)
    (hAC : A.Rows * C.Columns ≤ limit) :
    ∃ R, (A.MustMul k limit B >>= fun AB => AB.MustMul k limit C) = .ok R ∧
      (B.MustMul k limit C >>= fun BC => A.MustMul k limit BC) = .ok R := by
  obtain ⟨ar0, ac0, al⟩ := hA
  obtain ⟨_, _, alen⟩ := hAv
  obtain ⟨br0, bc0, bl⟩ := hB
  obtain ⟨_, _, blen⟩ := hBv
  obtain ⟨cr0, cc0, cl⟩ := hC
  obtain ⟨_, _, clen⟩ := hCv
  have hAB' : A.Rows * B.Columns ≤ maxInt := by omega
  have hBC' : B.Rows * C.Columns ≤ maxInt := by omega
  have hAC' : A.Rows * C.Columns ≤ maxInt := by omega
  obtain ⟨AB, hab, abR, abC, abL, abE⟩ :=
    MustMul_entries k limit A B al alen bl blen h1 ar0 ac0 bc0 hAB'
      (le_limitWith _ (le_limitWith _ hAB))
  obtain ⟨R1, hr1, r1R, r1C, r1L, r1E⟩ := MustMul_entries k limit AB C
    (by rw [abL, abR, abC]) (by rw [abL]; exact hAB') cl clen (by rw [abC]; exact h2)
    (by rw [abR]; exact ar0) (by rw [abC]; exact bc0) cc0 (by rw [abR]; exact hAC')
    (by rw [abR]; exact le_limitWith _ (le_limitWith _ hAC))
  obtain ⟨BC, hbc, bcR, bcC, bcL, bcE⟩ :=
    MustMul_entries k limit B C bl blen cl clen h2 br0 bc0 cc0 hBC'
      (le_limitWith _ (le_limitWith _ hBC))
  obtain ⟨R2, hr2, r2R, r2C, r2L, r2E⟩ := MustMul_entries k limit A BC al alen
    (by rw [bcL, bcR, bcC]) (by rw [bcL]; exact hBC') (by rw [bcR]; exact h1)
    ar0 ac0 (by rw [bcC]; exact cc0) (by rw [bcC]; exact hAC')
    (by rw [bcC]; exact le_limitWith _ (le_limitWith _ hAC))
  refine ⟨R1, ?_, ?_⟩
  · rw [hab]; exact hr1
  · rw [hbc]
    simp only [bind_ok]
    rw [hr2]
    congr 1
    apply Matrix.ext_elem R1 R2 (by rw [r2R, r1R, abR]) (by rw [r2C, r1C, bcC])
      (by rw [r1C]; exact cc0) (by rw [r1L, r1R, r1C]) (by rw [r2L, r1R, r1C, abR, bcC])
    intro r c hr0 hr hc0 hc
    rw [r1R, abR] at hr
    rw [r1C] at hc
    rw [r2E r c hr0 hr hc0 (by rw [bcC]; exact hc),
      r1E r c hr0 (by rw [abR]; exact hr) hc0 hc, abC]
    have e1 : k.wrap (sumTo (fun n => AB.elem r n * C.elem n c) B.Columns.toNat)
        = k.wrap (sumTo (fun n =>
            sumTo (fun m => A.elem r m * B.elem m n) A.Columns.toNat * C.elem n c)
            B.Columns.toNat) := by
      apply wrap_sumTo_congr
      intro n hn
      dsimp only
      rw [abE r n hr0 hr (by omega) (by omega)]
      exact (k.wrap_modEq _).mul_right _
    have e2 : k.wrap (sumTo (fun m => A.elem r m * BC.elem m c) A.Columns.toNat)
        = k.wrap (sumTo (fun m =>
            A.elem r m * sumTo (fun n => B.elem m n * C.elem n c) B.Columns.toNat)
            A.Columns.toNat) := by
      apply wrap_sumTo_congr
      intro m hm
      dsimp only
      rw [bcE m c (by omega) (by omega) hc0 hc]
      exact (k.wrap_modEq _).mul_left _
    rw [e1, e2, sumTo_assoc (fun m => A.elem r m) (fun n => C.elem n c)
      (fun m n => B.elem m n)]

/-- C16 (amended) at a 1x2, a 2x2 and a 2x1 matrix over `int8` with the
allocation limit `2^45`. -/
theorem C16_MustMul_assoc_witness :
    Matrix.WF ⟨1, 2, [100, 2]⟩ ∧ Matrix.WF ⟨2, 2, [3, 4, 5, 6]⟩ ∧ Matrix.WF ⟨2, 1, [7, 8]⟩ ∧
    ∃ R, (Matrix.MustMul .int8 (2 ^ 45) ⟨1, 2, [100, 2]⟩ ⟨2, 2, [3, 4, 5, 6]⟩ >>=
        fun AB => AB.MustMul .int8 (2 ^ 45) ⟨2, 1, [7, 8]⟩) = .ok R ∧
      (Matrix.MustMul .int8 (2 ^ 45) ⟨2, 2, [3, 4, 5, 6]⟩ ⟨2, 1, [7, 8]⟩ >>=
        fun BC => Matrix.MustMul .int8 (2 ^ 45) ⟨1, 2, [100, 2]⟩ BC) = .ok R :=
  ⟨by decide, by decide, by decide,
    C16_MustMul_assoc .int8 (2 ^ 45) ⟨1, 2, [100, 2]⟩ ⟨2, 2, [3, 4, 5, 6]⟩ ⟨2, 1, [7, 8]⟩
      (by decide) (by decide) (by decide) (by decide) (by decide) (by decide)
      (by decide) (by decide) (by decide) (by decide) (by decide) (by decide)⟩

/-- C17, as stated, fails: for the well-formed `2^32 x 0` matrix
`Identity(A.Rows)` computes `size * size` in `int`, which wraps to `0`, and
does not return, whatever the allocation limit is: its first diagonal store
is a slice index out of range. -/
theorem C17_counterexample :
    Matrix.WF ⟨2 ^ 32, 0, []⟩ ∧ Matrix.IsValue ⟨2 ^ 32, 0, []⟩ ∧
    Matrix.Typed .uint16 ⟨2 ^ 32, 0, []⟩ ∧
    (Identity (2 ^ 48) (Matrix.Rows ⟨2 ^ 32, 0, []⟩) >>=
        fun I => I.MustMul .uint16 (2 ^ 48) ⟨2 ^ 32, 0, []⟩) = .error .indexOutOfRange ∧
    ∀ limit : Int,
      Result.isOk (Identity limit (Matrix.Rows ⟨2 ^ 32, 0, []⟩) >>=
        fun I => I.MustMul .uint16 limit ⟨2 ^ 32, 0, []⟩) = false := by
  refine ⟨by decide, by decide, by decide, by decide, ?_⟩
  intro limit
  have h0 : imul (2 ^ 32) (2 ^ 32) = 0 := by decide
  show Result.isOk (Identity limit (2 ^ 32) >>= _) = false
  unfold Identity
  by_cases hl : 0 ≤ limit
  · rw [New_nil limit (2 ^ 32) (2 ^ 32) (by rw [h0]) (by rw [h0]; exact hl), h0]
    rfl
  · rw [New_neg limit (2 ^ 32) (2 ^ 32) [] (Or.inr (by rw [h0]; omega))]
    rfl

/-- C17 (amended): `Identity` is a left identity for `MustMul`: for every
well-formed matrix `A` over an integer element type for which
`A.Rows * A.Rows` does not exceed the allocation limit of the runtime (itself
a value of `int`), `Identity(A.Rows).MustMul(A)` returns and equals `A` (same
`Rows`, `Columns` and `Data`). -/
theorem C17_Identity_MustMul (k : Kind) (limit : Int) (A : Matrix) (hwf : A.WF)
    (hv : A.IsValue) (ht : A.Typed k) (hlim : limit ≤ maxInt)
    (hsq : A.Rows * A.Rows ≤ limit) :
    (Identity limit A.Rows >>= fun I => I.MustMul k limit A) = .ok A := by
  obtain ⟨hr0, hc0, hl⟩ := hwf
  obtain ⟨_, _, hlen⟩ := hv
  obtain ⟨d, hid, hdl, hdv⟩ := Identity_ok limit A.Rows hr0 (by omega) hsq
  rw [hid]
  simp only [bind_ok]
  obtain ⟨R, hmul, hR, hC, hL, hE⟩ := MustMul_entries k limit ⟨A.Rows, A.Rows, d⟩ A hdl
    (by rw [hdl]; omega) hl hlen rfl hr0 hr0 hc0 (by rw [← hl]; exact hlen)
    (by rw [← hl]; exact len_le_limitWith _ A.Data)
  rw [hmul]
  congr 1
  apply Matrix.ext_elem A R hR hC hc0 hl hL
  intro r c h1 h2 h3 h4
  rw [hE r c h1 h2 h3 h4]
  have e1 : sumTo (fun n => Matrix.elem ⟨A.Rows, A.Rows, d⟩ r n * A.elem n c) A.Rows.toNat
      = sumTo (fun n => (if ((r.toNat : Nat) : Int) = n then 1 else 0) * A.elem n c)
        A.Rows.toNat := by
    apply sumTo_congr
    intro i hi
    have er : ((r.toNat : Nat) : Int) = r := by omega
    show d.getD (r * A.Rows + (i : Int)).toNat 0 * _ = _
    rw [hdv r i h1 h2 (by omega) (by omega), er]
  show k.wrap (sumTo (fun n => Matrix.elem ⟨A.Rows, A.Rows, d⟩ r n * A.elem n c)
    A.Rows.toNat) = _
  rw [e1, sumTo_indicator_left (fun n => A.elem n c) r.toNat A.Rows.toNat,
    if_pos (by omega)]
  have er : ((r.toNat : Nat) : Int) = r := by omega
  rw [er]
  exact elem_inRange k A ht r c (lin_nonneg h1 h3 h4) (by rw [hl]; exact lin_lt h2 h3 h4)

/-- C17 (amended) at the 2x3 matrix `[1,2,3,4,5,6]` over `uint16` with the
allocation limit `2^45`. -/
theorem C17_Identity_MustMul_witness :
    Matrix.WF ⟨2, 3, [1, 2, 3, 4, 5, 6]⟩ ∧ Matrix.IsValue ⟨2, 3, [1, 2, 3, 4, 5, 6]⟩ ∧
    Matrix.Typed .uint16 ⟨2, 3, [1, 2, 3, 4, 5, 6]⟩ ∧ (2 : Int) ^ 45 ≤ maxInt ∧
    (Identity (2 ^ 45) 2 >>= fun I => I.MustMul .uint16 (2 ^ 45) ⟨2, 3, [1, 2, 3, 4, 5, 6]⟩)
      = .ok ⟨2, 3, [1, 2, 3, 4, 5, 6]⟩ :=
  ⟨by decide, by decide, by decide, by decide,
    C17_Identity_MustMul .uint16 (2 ^ 45) ⟨2, 3, [1, 2, 3, 4, 5, 6]⟩ (by decide) (by decide)
      (by decide) (by decide) (by decide)⟩

/-- C18, as stated, fails: for the well-formed `2^32 x 0` matrix `A` and the
well-formed `0 x 2^32` matrices `B = C`, `B.MustAdd(C)` returns, but the
product with `A` needs `2^32 * 2^32` elements, a length that wraps to `0`,
and `A.MustMul(B.MustAdd(C))` panics with a slice index out of range,
whatever the allocation limit is. -/
theorem C18_counterexample :
    Matrix.WF ⟨2 ^ 32, 0, []⟩ ∧ Matrix.IsValue ⟨2 ^ 32, 0, []⟩ ∧
    Matrix.WF ⟨0, 2 ^ 32, []⟩ ∧ Matrix.IsValue ⟨0, 2 ^ 32, []⟩ ∧
    ∀ limit : Int,
      (Matrix.MustAdd .int16 limit ⟨0, 2 ^ 32, []⟩ ⟨0, 2 ^ 32, []⟩ >>=
        fun S => Matrix.MustMul .int16 limit ⟨2 ^ 32, 0, []⟩ S)
          = .error .indexOutOfRange := by
  refine ⟨by decide, by decide, by decide, by decide, ?_⟩
  intro limit
  have h0 : imul (2 ^ 32) (2 ^ 32) = 0 := by decide
  have h1 : imul 0 (2 ^ 32) = 0 := by decide
  have hadd : Matrix.MustAdd .int16 limit ⟨0, 2 ^ 32, []⟩ ⟨0, 2 ^ 32, []⟩
      = .ok ⟨0, 2 ^ 32, []⟩ := by
    unfold Matrix.MustAdd
    rw [if_neg (by decide),
      New_nil _ 0 (2 ^ 32) (by rw [h1])
        (by rw [h1]; exact len_le_limitWith _ ([] : List Int)), h1]
    rfl
  rw [hadd]
  simp only [bind_ok]
  unfold Matrix.MustMul
  rw [if_neg (by decide),
    New_nil _ (2 ^ 32) (2 ^ 32) (by rw [h0])
      (by rw [h0]; exact len_le_limitWith _ ([] : List Int)), h0]
  rfl

/-- C18 (amended): `MustMul` distributes over `MustAdd`: for all well-formed
matrices `A`, `B`, `C` over an integer element type with `B` and `C` of the
same shape and `A.Columns = B.Rows` for which `A.Rows * B.Columns` does not
exceed the allocation limit of the runtime (itself a value of `int`),
`A.MustMul(B.MustAdd(C))` equals `A.MustMul(B).MustAdd(A.MustMul(C))`, and
neither side fails. -/
theorem C18_MustMul_distrib (k : Kind) (limit : Int) (A B C : Matrix)
    (hA : A.WF) (hAv : A.IsValue) (hB : B.WF) (hBv : B.IsValue) (hC : C.WF)
    (hR : B.Rows = C.Rows) (hCol : B.Columns = C.Columns) (h1 : A.Columns = B.Rows)
    (hlim : limit ≤ maxInt) (hmax : A.Rows * B.Columns ≤ limit) :
    ∃ R, (B.MustAdd k limit C >>= fun S => A.MustMul k limit S) = .ok R ∧
      (A.MustMul k limit B >>= fun AB => A.MustMul k limit C >>=
        fun AC => AB.MustAdd k limit AC) = .ok R := by
  obtain ⟨ar0, ac0, al⟩ := hA
  obtain ⟨_, _, alen⟩ := hAv
  obtain ⟨br0, bc0, bl⟩ := hB
  obtain ⟨_, _, blen⟩ := hBv
  obtain ⟨cr0, cc0, cl⟩ := hC
  have hmax' : A.Rows * B.Columns ≤ maxInt := by omega
  have clen : len C.Data ≤ maxInt := by rw [cl, ← hR, ← hCol, ← bl]; exact blen
  obtain ⟨ds, hs, dsl, dsv⟩ := MustAdd_ok k limit B C bl blen cl hR hCol
  have hsl : len ds = B.Rows * C.Columns := by
    unfold len at *; rw [dsl, ← hCol]; exact bl
  obtain ⟨R1, hr1, r1R, r1C, r1L, r1E⟩ := MustMul_entries k limit A ⟨B.Rows, C.Columns, ds⟩
    al alen hsl (by rw [hsl, ← hCol, ← bl]; exact blen) h1 ar0 ac0 cc0
    (by show A.Rows * C.Columns ≤ maxInt; rw [← hCol]; exact hmax')
    (by
      show A.Rows * C.Columns ≤ _
      rw [← hCol]; exact le_limitWith _ (le_limitWith _ hmax))
  obtain ⟨AB, hab, abR, abC, abL, abE⟩ :=
    MustMul_entries k limit A B al alen bl blen h1 ar0 ac0 bc0 hmax'
      (le_limitWith _ (le_limitWith _ hmax))
  obtain ⟨AC, hac, acR, acC, acL, acE⟩ :=
    MustMul_entries k limit A C al alen cl clen (by rw [h1, hR]) ar0 ac0 cc0
      (by rw [← hCol]; exact hmax')
      (by rw [← hCol]; exact le_limitWith _ (le_limitWith _ hmax))
  obtain ⟨d2, hs2, d2l, d2v⟩ := MustAdd_ok k limit AB AC (by rw [abL, abR, abC])
    (by rw [abL]; exact hmax') (by rw [acL, acR, acC]) (by rw [abR, acR])
    (by rw [abC, acC, hCol])
  refine ⟨R1, ?_, ?_⟩
  · rw [hs]; exact hr1
  · rw [hab]
    simp only [bind_ok]
    rw [hac]
    simp only [bind_ok]
    rw [hs2]
    congr 1
    have hd2len : len d2 = A.Rows * B.Columns := by
      unfold len at *; rw [d2l]; exact abL
    apply Matrix.ext_elem R1 ⟨AB.Rows, AC.Columns, d2⟩ (by rw [r1R, abR])
      (by rw [r1C, acC]) (by rw [r1C]; exact cc0) (by rw [r1L, r1R, r1C])
      (by rw [r1R, r1C]; show len d2 = A.Rows * C.Columns; rw [hd2len, hCol])
    intro r c hr0 hr hc0 hc
    rw [r1R] at hr
    rw [r1C] at hc
    have hcC : c < C.Columns := hc
    have hcB : c < B.Columns := by rw [hCol]; exact hc
    rw [r1E r c hr0 hr hc0 hc]
    have hidx0 := lin_nonneg hr0 hc0 hcB
    have hidx1 : r * B.Columns + c < A.Rows * B.Columns := lin_lt hr hc0 hcB
    have hd2 : Matrix.elem ⟨AB.Rows, AC.Columns, d2⟩ r c
        = k.add (AB.elem r c) (AC.elem r c) := by
      show d2.getD (r * AC.Columns + c).toNat 0 = _
      rw [acC, ← hCol, d2v _ (by unfold len at abL; omega)]
      unfold Matrix.elem
      rw [abC, acC, hCol]
    rw [hd2, abE r c hr0 hr hc0 hcB, acE r c hr0 hr hc0 hcC]
    unfold Kind.add
    have e1 : k.wrap (sumTo (fun n => A.elem r n * Matrix.elem ⟨B.Rows, C.Columns, ds⟩ n c)
        A.Columns.toNat)
        = k.wrap (sumTo (fun n => A.elem r n * (B.elem n c + C.elem n c)) A.Columns.toNat) := by
      apply wrap_sumTo_congr
      intro n hn
      dsimp only
      have hn1 : (n : Int) < B.Rows := by omega
      have hlin0 := lin_nonneg (Int.ofNat_nonneg n) hc0 hcB
      have hlin1 : (n : Int) * B.Columns + c < B.Rows * B.Columns := lin_lt hn1 hc0 hcB
      have : Matrix.elem ⟨B.Rows, C.Columns, ds⟩ n c = k.add (B.elem n c) (C.elem n c) := by
        show ds.getD ((n : Int) * C.Columns + c).toNat 0 = _
        rw [← hCol, dsv _ (by unfold len at bl; omega)]
        unfold Matrix.elem
        rw [hCol]
      rw [this]
      exact (k.wrap_modEq _).mul_left _
    rw [e1]
    apply k.wrap_congr
    have e2 : sumTo (fun n => A.elem r n * (B.elem n c + C.elem n c)) A.Columns.toNat
        = sumTo (fun n => A.elem r n * B.elem n c) A.Columns.toNat
          + sumTo (fun n => A.elem r n * C.elem n c) A.Columns.toNat := by
      rw [← sumTo_add]
      apply sumTo_congr
      intro i _
      ring
    rw [e2]
    exact (k.wrap_modEq _).add (k.wrap_modEq _)

/-- C18 (amended) at a 1x2 matrix and two 2x1 matrices over `int8` with the
allocation limit `2^45`. -/
theorem C18_MustMul_distrib_witness :
    Matrix.WF ⟨1, 2, [100, 2]⟩ ∧ Matrix.WF ⟨2, 1, [3, 4]⟩ ∧ Matrix.WF ⟨2, 1, [5, 6]⟩ ∧
    ∃ R, (Matrix.MustAdd .int8 (2 ^ 45) ⟨2, 1, [3, 4]⟩ ⟨2, 1, [5, 6]⟩ >>=
        fun S => Matrix.MustMul .int8 (2 ^ 45) ⟨1, 2, [100, 2]⟩ S) = .ok R ∧
      (Matrix.MustMul .int8 (2 ^ 45) ⟨1, 2, [100, 2]⟩ ⟨2, 1, [3, 4]⟩ >>=
        fun AB => Matrix.MustMul .int8 (2 ^ 45) ⟨1, 2, [100, 2]⟩ ⟨2, 1, [5, 6]⟩ >>=
          fun AC => AB.MustAdd .int8 (2 ^ 45) AC) = .ok R :=
  ⟨by decide, by decide, by decide,
    C18_MustMul_distrib .int8 (2 ^ 45) ⟨1, 2, [100, 2]⟩ ⟨2, 1, [3, 4]⟩ ⟨2, 1, [5, 6]⟩
      (by decide) (by decide) (by decide) (by decide) (by decide) (by decide)
      (by decide) (by decide) (by decide) (by decide)⟩

/-- C19: `Scale` commutes with `MustMul`: for all well-formed matrices `A`,
`B` over an integer element type with `A.Columns = B.Rows` and every scalar
`s`, `A.Scale(s).MustMul(B)` and `A.MustMul(B).Scale(s)` have the same
outcome; when `A.Rows * B.Columns` is within the allocation limit of the
runtime both return, and they return the same matrix (same `Rows`, `Columns`
and `Data`); when it is not, both panic, in the same way. -/
theorem C19_Scale_MustMul (k : Kind) (limit : Int) (A B : Matrix) (s : Int)
    (hA : A.WF) (hAv : A.IsValue) (hB : B.WF) (hBv : B.IsValue)
    (h1 : A.Columns = B.Rows) :
    (A.Scale k limit s >>= fun A' => A'.MustMul k limit B)
      = (A.MustMul k limit B >>= fun R => R.Scale k limit s) ∧
    (limit ≤ maxInt → A.Rows * B.Columns ≤ limit →
      ∃ R, (A.Scale k limit s >>= fun A' => A'.MustMul k limit B) = .ok R ∧
        (A.MustMul k limit B >>= fun R => R.Scale k limit s) = .ok R) ∧
    (limitWith (limitWith limit A.Data) B.Data < A.Rows * B.Columns →
      ∃ e, (A.Scale k limit s >>= fun A' => A'.MustMul k limit B) = .error e ∧
        (A.MustMul k limit B >>= fun R => R.Scale k limit s) = .error e) := by
  obtain ⟨ar0, ac0, al⟩ := hA
  obtain ⟨_, _, alen⟩ := hAv
  obtain ⟨br0, bc0, bl⟩ := hB
  obtain ⟨_, _, blen⟩ := hBv
  obtain ⟨d, hsc, hdl, hdv⟩ := Scale_ok k limit A s
  have hld : len d = len A.Data := by unfold len; rw [hdl]
  have hl' : len d = A.Rows * A.Columns := by rw [hld]; exact al
  have hlen' : len d ≤ maxInt := by rw [hld]; exact alen
  have hlw : limitWith limit d = limitWith limit A.Data := by
    unfold limitWith; rw [hld]
  have hgood : A.Rows * B.Columns ≤ maxInt →
      A.Rows * B.Columns ≤ limitWith (limitWith limit A.Data) B.Data →
      ∃ R, (A.Scale k limit s >>= fun A' => A'.MustMul k limit B) = .ok R ∧
        (A.MustMul k limit B >>= fun R => R.Scale k limit s) = .ok R := by
    intro hmax hlimit
    obtain ⟨R1, hr1, r1R, r1C, r1L, r1E⟩ := MustMul_entries k limit ⟨A.Rows, A.Columns, d⟩ B
      hl' hlen' bl blen h1 ar0 ac0 bc0 hmax
      (by show A.Rows * B.Columns ≤ limitWith (limitWith limit d) B.Data
          rw [hlw]; exact hlimit)
    obtain ⟨R2, hr2, r2R, r2C, r2L, r2E⟩ :=
      MustMul_entries k limit A B al alen bl blen h1 ar0 ac0 bc0 hmax hlimit
    obtain ⟨d3, hsc3, hd3l, hd3v⟩ := Scale_ok k limit R2 s
    have hld3 : len d3 = len R2.Data := by unfold len; rw [hd3l]
    refine ⟨R1, ?_, ?_⟩
    · rw [hsc]; exact hr1
    · rw [hr2]
      simp only [bind_ok]
      rw [hsc3]
      congr 1
      apply Matrix.ext_elem R1 ⟨R2.Rows, R2.Columns, d3⟩ (by rw [r1R, r2R]) (by rw [r1C, r2C])
        (by rw [r1C]; exact bc0) (by rw [r1L, r1R, r1C])
        (by rw [r1R, r1C]; show len d3 = _; rw [hld3, r2L])
      intro r c hr0 hr hc0 hc
      rw [r1R] at hr
      rw [r1C] at hc
      have hidx0 := lin_nonneg hr0 hc0 hc
      have hidx1 : r * B.Columns + c < A.Rows * B.Columns := lin_lt hr hc0 hc
      have hd3 : Matrix.elem ⟨R2.Rows, R2.Columns, d3⟩ r c = k.mul (R2.elem r c) s := by
        show d3.getD (r * R2.Columns + c).toNat 0 = _
        rw [r2C, hd3v _ (by unfold len at r2L; omega)]
        unfold Matrix.elem
        rw [r2C]
      rw [hd3, r1E r c hr0 hr hc0 hc, r2E r c hr0 hr hc0 hc]
      unfold Kind.mul
      have e1 : k.wrap (sumTo (fun n => Matrix.elem ⟨A.Rows, A.Columns, d⟩ r n * B.elem n c)
          A.Columns.toNat)
          = k.wrap (sumTo (fun n => A.elem r n * B.elem n c * s) A.Columns.toNat) := by
        apply wrap_sumTo_congr
        intro n hn
        dsimp only
        have hn1 : (n : Int) < A.Columns := by omega
        have hlin0 := lin_nonneg hr0 (Int.ofNat_nonneg n) hn1
        have hlin1 : r * A.Columns + (n : Int) < A.Rows * A.Columns :=
          lin_lt hr (Int.ofNat_nonneg n) hn1
        have : Matrix.elem ⟨A.Rows, A.Columns, d⟩ r n = k.mul (A.elem r n) s := by
          show d.getD (r * A.Columns + (n : Int)).toNat 0 = _
          rw [hdv _ (by unfold len at al; omega)]
          rfl
        rw [this]
        have h := (k.wrap_modEq (A.elem r n * s)).mul_right (B.elem n c)
        have e : A.elem r n * s * B.elem n c = A.elem r n * B.elem n c * s := by ring
        rw [e] at h
        exact h
      show k.wrap (k.wrap (sumTo (fun n => A.elem r n * B.elem n c) A.Columns.toNat) * s)
        = k.wrap (sumTo (fun n => Matrix.elem ⟨A.Rows, A.Columns, d⟩ r n * B.elem n c)
          A.Columns.toNat)
      rw [e1, sumTo_mul_right]
      exact k.wrap_congr ((k.wrap_modEq _).mul_right _)
  have hbad : (maxInt < A.Rows * B.Columns
        ∨ limitWith (limitWith limit A.Data) B.Data < A.Rows * B.Columns) →
      ∃ e, (A.Scale k limit s >>= fun A' => A'.MustMul k limit B) = .error e ∧
        (A.MustMul k limit B >>= fun R => R.Scale k limit s) = .error e := by
    intro hover
    cases h1r : Matrix.MustMul k limit ⟨A.Rows, A.Columns, d⟩ B with
    | ok R =>
      obtain ⟨_, _, _, _, g1, g2⟩ := MustMul_shape k limit ⟨A.Rows, A.Columns, d⟩ B R ar0 bc0 h1r
      have g1' : A.Rows * B.Columns ≤ maxInt := g1
      have g2' : A.Rows * B.Columns ≤ limitWith (limitWith limit d) B.Data := g2
      rw [hlw] at g2'
      omega
    | error e1 =>
      cases h2r : A.MustMul k limit B with
      | ok R =>
        obtain ⟨_, _, _, _, g1, g2⟩ := MustMul_shape k limit A B R ar0 bc0 h2r
        omega
      | error e2 =>
        have k1 := MustMul_error_kind k limit ⟨A.Rows, A.Columns, d⟩ B e1 hl' hlen' bl blen h1
          ar0 ac0 bc0 h1r
        have k1' : e1 = if imul A.Rows B.Columns < 0
            ∨ limitWith (limitWith limit d) B.Data < imul A.Rows B.Columns
            then .makesliceLen else .indexOutOfRange := k1
        rw [hlw] at k1'
        have k2 := MustMul_error_kind k limit A B e2 al alen bl blen h1 ar0 ac0 bc0 h2r
        refine ⟨e1, ?_, ?_⟩
        · rw [hsc]
          simp only [bind_ok]
          exact h1r
        · rw [k1', ← k2]
          rfl
  refine ⟨?_, fun hlim hmax => hgood (by omega) (le_limitWith _ (le_limitWith _ hmax)),
    fun h => hbad (Or.inr h)⟩
  by_cases hmax : A.Rows * B.Columns ≤ maxInt
      ∧ A.Rows * B.Columns ≤ limitWith (limitWith limit A.Data) B.Data
  · obtain ⟨R, h1', h2'⟩ := hgood hmax.1 hmax.2
    rw [h1', h2']
  · obtain ⟨e, h1', h2'⟩ := hbad (by
      by_cases h : A.Rows * B.Columns ≤ maxInt
      · exact Or.inr (by
          have : ¬ A.Rows * B.Columns ≤ limitWith (limitWith limit A.Data) B.Data :=
            fun h' => hmax ⟨h, h'⟩
          omega)
      · exact Or.inl (by omega))
    rw [h1', h2']

/-- C19 at a 1x2 and a 2x1 matrix over `int8` with the scalar `3` and the
allocation limit `2^45`. -/
theorem C19_Scale_MustMul_witness :
    Matrix.WF ⟨1, 2, [100, 2]⟩ ∧ Matrix.IsValue ⟨1, 2, [100, 2]⟩ ∧
    Matrix.WF ⟨2, 1, [3, 4]⟩ ∧ Matrix.IsValue ⟨2, 1, [3, 4]⟩ ∧
    (Matrix.Scale .int8 (2 ^ 45) ⟨1, 2, [100, 2]⟩ 3 >>=
        fun A' => A'.MustMul .int8 (2 ^ 45) ⟨2, 1, [3, 4]⟩) = .ok ⟨1, 1, [-100]⟩ ∧
    (Matrix.Scale .int8 (2 ^ 45) ⟨1, 2, [100, 2]⟩ 3 >>=
        fun A' => A'.MustMul .int8 (2 ^ 45) ⟨2, 1, [3, 4]⟩)
      = (Matrix.MustMul .int8 (2 ^ 45) ⟨1, 2, [100, 2]⟩ ⟨2, 1, [3, 4]⟩ >>=
          fun R => R.Scale .int8 (2 ^ 45) 3) :=
  ⟨by decide, by decide, by decide, by decide, by decide,
    (C19_Scale_MustMul .int8 (2 ^ 45) ⟨1, 2, [100, 2]⟩ ⟨2, 1, [3, 4]⟩ 3 (by decide)
      (by decide) (by decide) (by decide) (by decide)).1⟩

/-! ## The square root of `Len` -/

theorem isqrtFrom_spec (n : Nat) :
    ∀ (i r : Nat), r * r ≤ n → n < (r + 2 ^ i) * (r + 2 ^ i) →
      isqrtFrom n i r * isqrtFrom n i r ≤ n
        ∧ n < (isqrtFrom n i r + 1) * (isqrtFrom n i r + 1) := by
  intro i
  induction i with
  | zero =>
    intro r h1 h2
    simp only [isqrtFrom]
    exact ⟨h1, by simpa using h2⟩
  | succ i ih =>
    intro r h1 h2
    simp only [isqrtFrom]
    by_cases hc : (r + 2 ^ i) * (r + 2 ^ i) ≤ n
    · rw [if_pos hc]
      apply ih (r + 2 ^ i) hc
      have e : r + 2 ^ i + 2 ^ i = r + 2 ^ (i + 1) := by rw [pow_succ]; omega
      rw [e]; exact h2
    · rw [if_neg hc]
      exact ih r h1 (by omega)

/-- The function `isqrt` is the integer square root below `2^160`. -/
theorem isqrt_spec (n : Nat) (h : n < 2 ^ 160) :
    isqrt n * isqrt n ≤ n ∧ n < (isqrt n + 1) * (isqrt n + 1) := by
  unfold isqrt
  apply isqrtFrom_spec n 80 0 (by omega)
  have e : (0 + 2 ^ 80) * (0 + 2 ^ 80) = 2 ^ 160 := by norm_num
  rw [e]; exact h

theorem sqrtShiftFrom_ge (s : Nat) : ∀ (fuel t : Nat), t ≤ sqrtShiftFrom s fuel t := by
  intro fuel
  induction fuel with
  | zero => intro t; simp [sqrtShiftFrom]
  | succ f ih =>
    intro t
    simp only [sqrtShiftFrom]
    split
    · exact le_refl _
    · exact le_trans (Nat.le_succ t) (ih (t + 1))

theorem sqrtShiftFrom_le (s : Nat) : ∀ (fuel t : Nat), sqrtShiftFrom s fuel t ≤ t + fuel := by
  intro fuel
  induction fuel with
  | zero => intro t; simp [sqrtShiftFrom]
  | succ f ih =>
    intro t
    simp only [sqrtShiftFrom]
    split
    · omega
    · have := ih (t + 1); omega

/-- The search for the exponent does not stop while the scaled argument is
below `2^104`. -/
theorem sqrtShiftFrom_lower (s T : Nat) :
    ∀ (fuel t : Nat), T ≤ t + fuel → (∀ u, t ≤ u → u < T → s * 4 ^ u < 2 ^ 104) →
      T ≤ sqrtShiftFrom s fuel t := by
  intro fuel
  induction fuel with
  | zero => intro t h _; simp only [sqrtShiftFrom]; omega
  | succ f ih =>
    intro t h hu
    simp only [sqrtShiftFrom]
    by_cases ht : t < T
    · have hlt := hu t (le_refl _) ht
      rw [if_neg (by omega)]
      exact ih (t + 1) (by omega) (fun u h1 h2 => hu u (by omega) h2)
    · split
      · omega
      · exact le_trans (by omega) (sqrtShiftFrom_ge s f (t + 1))

/-- Below `2^52` the correctly rounded double-precision square root, truncated,
is the integer square root. -/
theorem sqrtTrunc_floor (s a : Nat) (hs : s < 2 ^ 52) (h1 : a * a ≤ s)
    (h2 : s < (a + 1) * (a + 1)) : sqrtTrunc (s : Int) = (a : Int) := by
  unfold sqrtTrunc
  by_cases h0 : (s : Int) ≤ 0
  · rw [if_pos h0]
    have hs0 : s = 0 := by omega
    subst hs0
    have : a = 0 := by
      by_contra hne
      have : 1 ≤ a := Nat.one_le_iff_ne_zero.mpr hne
      have : 1 * 1 ≤ a * a := Nat.mul_le_mul this this
      omega
    rw [this]; rfl
  · rw [if_neg h0]
    have e : ((s : Int)).toNat = s := by omega
    rw [e]
    congr 1
    unfold sqrtSignificand
    simp only []
    have ht27 : 27 ≤ sqrtShift s := by
      unfold sqrtShift
      apply sqrtShiftFrom_lower s 27 52 0 (by omega)
      intro u _ hu
      have h4 : 4 ^ u ≤ 4 ^ 26 := Nat.pow_le_pow_right (by omega) (by omega)
      calc s * 4 ^ u ≤ s * 4 ^ 26 := Nat.mul_le_mul_left s h4
        _ < 2 ^ 52 * 4 ^ 26 := Nat.mul_lt_mul_of_pos_right hs (by positivity)
        _ = 2 ^ 104 := by norm_num
    have ht52 : sqrtShift s ≤ 52 := by
      unfold sqrtShift
      have := sqrtShiftFrom_le s 52 0
      omega
    generalize sqrtShift s = t at ht27 ht52
    have hP : 2 ^ 27 ≤ 2 ^ t := Nat.pow_le_pow_right (by omega) ht27
    have hP52 : 2 ^ t ≤ 2 ^ 52 := Nat.pow_le_pow_right (by omega) ht52
    have h4 : 4 ^ t = 2 ^ t * 2 ^ t := by
      rw [← Nat.mul_pow]
    rw [h4]
    generalize 2 ^ t = P at hP hP52 ⊢
    have ha : a + 1 ≤ 2 ^ 26 := by
      by_contra hcon
      have h26 : 2 ^ 26 ≤ a := by omega
      have : 2 ^ 26 * 2 ^ 26 ≤ a * a := Nat.mul_le_mul h26 h26
      have e52 : (2 : Nat) ^ 26 * 2 ^ 26 = 2 ^ 52 := by norm_num
      omega
    have haP : a + 1 ≤ P := by
      have : (2 : Nat) ^ 26 ≤ 2 ^ 27 := by norm_num
      omega
    have hNlt : s * (P * P) < 2 ^ 160 := by
      have h104 : P * P ≤ 2 ^ 52 * 2 ^ 52 := Nat.mul_le_mul hP52 hP52
      calc s * (P * P) ≤ s * (2 ^ 52 * 2 ^ 52) := Nat.mul_le_mul_left s h104
        _ < 2 ^ 52 * (2 ^ 52 * 2 ^ 52) := Nat.mul_lt_mul_of_pos_right hs (by positivity)
        _ ≤ 2 ^ 160 := by norm_num
    obtain ⟨hr1, hr2⟩ := isqrt_spec (s * (P * P)) hNlt
    generalize isqrt (s * (P * P)) = r at hr1 hr2 ⊢
    have hlow : a * P * (a * P) ≤ s * (P * P) := by
      have := Nat.mul_le_mul_right (P * P) h1
      calc a * P * (a * P) = a * a * (P * P) := by ring
        _ ≤ s * (P * P) := this
    have hup : (s + 1) * (P * P) ≤ (a + 1) * P * ((a + 1) * P) := by
      have := Nat.mul_le_mul_right (P * P) (Nat.succ_le_of_lt h2)
      calc (s + 1) * (P * P) ≤ (a + 1) * (a + 1) * (P * P) := this
        _ = (a + 1) * P * ((a + 1) * P) := by ring
    have hPpos : 0 < P := by omega
    have haPr : a * P ≤ r := by
      by_contra hcon
      have hlt : r + 1 ≤ a * P := by omega
      have := Nat.mul_le_mul hlt hlt
      omega
    have hrM : r < (a + 1) * P := by
      by_contra hcon
      have hge : (a + 1) * P ≤ r := by omega
      have := Nat.mul_le_mul hge hge
      have hexp : (s + 1) * (P * P) = s * (P * P) + P * P := by ring
      have : 0 < P * P := Nat.mul_pos hPpos hPpos
      omega
    apply Nat.div_eq_of_lt_le
    · split
      · omega
      · exact haPr
    · split
      · rename_i hround
        by_contra hcon
        have hM : r + 1 = (a + 1) * P := by omega
        have hsq : (r + 1) * (r + 1) = r * r + r + (r + 1) := by ring
        have hexp : (s + 1) * (P * P) = s * (P * P) + P * P := by ring
        rw [← hM] at hup
        have hPP : P * P < r + 1 := by omega
        rw [hM] at hPP
        have : (a + 1) * P ≤ P * P := Nat.mul_le_mul_right P haP
        omega
      · exact hrM

/-- C15, as stated, fails: over `int64` the column vector
`[67108864, 8192, 8192]` has the sum of squares `2^52 + 2^27`, which does not
overflow and which `float64` represents exactly; its integer square root is
`67108864`, but the correctly rounded double-precision square root is
`67108865.0`, and `Len` returns `67108865`. -/
theorem C15_counterexample :
    Matrix.Columns ⟨3, 1, [67108864, 8192, 8192]⟩ = 1 ∧
    Matrix.sumSquares ⟨3, 1, [67108864, 8192, 8192]⟩ = 2 ^ 52 + 2 ^ 27 ∧
    Kind.wrap .int64 (2 ^ 52 + 2 ^ 27) = 2 ^ 52 + 2 ^ 27 ∧
    ((2 : Int) ^ 52 + 2 ^ 27 < 2 ^ 53) ∧
    ((67108864 : Int) * 67108864 ≤ 2 ^ 52 + 2 ^ 27) ∧
    ((2 : Int) ^ 52 + 2 ^ 27 < (67108864 + 1) * (67108864 + 1)) ∧
    Matrix.Len .int64 sqrtTrunc ⟨3, 1, [67108864, 8192, 8192]⟩ = .ok 67108865 := by
  decide

/-- C15 (amended): `Len` fails if and only if `m.Columns != 1`; for a column
vector over an integer element type whose sum of squares `s` does not
overflow the element type and is exactly representable as a double, `Len`
returns the correctly rounded double-precision square root of `s` truncated
to an integer, and this is the floor of the square root of `s` whenever
`s < 2^52`; the `Len` of the column vector `[3, 4]` is `5`. -/
theorem C15_Len (k : Kind) (m : Matrix) :
    (∀ conv : Int → Int, (m.Len k conv).isOk = false ↔ m.Columns ≠ 1) ∧
    (m.Columns = 1 → k.wrap m.sumSquares = m.sumSquares → ExactDouble m.sumSquares →
      m.Len k sqrtTrunc = .ok (sqrtTrunc m.sumSquares) ∧
      ∀ a : Int, 0 ≤ a → a * a ≤ m.sumSquares → m.sumSquares < (a + 1) * (a + 1) →
        m.sumSquares < 2 ^ 52 → m.Len k sqrtTrunc = .ok a) ∧
    Matrix.Len k sqrtTrunc ⟨2, 1, [3, 4]⟩ = .ok 5 := by
  refine ⟨?_, ?_, by cases k <;> decide⟩
  · intro conv
    by_cases hc : m.Columns = 1
    · rw [Len_ok k conv m hc]; simp [hc]
    · rw [Len_error k conv m hc]; simp [hc]
  · intro hc hno _
    have hlen : m.Len k sqrtTrunc = .ok (sqrtTrunc m.sumSquares) := by
      rw [Len_ok k sqrtTrunc m hc, sumT_mul_eq]
      show Except.ok (sqrtTrunc (k.wrap m.sumSquares)) = _
      rw [hno]
    refine ⟨hlen, ?_⟩
    intro a ha h1 h2 h52
    rw [hlen]
    have hS0 : 0 ≤ m.sumSquares := le_trans (Int.mul_nonneg ha ha) h1
    have eS : m.sumSquares = ((m.sumSquares.toNat : Nat) : Int) := by omega
    have ea : a = ((a.toNat : Nat) : Int) := by omega
    rw [eS] at h1 h2 h52 ⊢
    rw [ea] at h1 h2 ⊢
    congr 1
    apply sqrtTrunc_floor
    · exact_mod_cast h52
    · exact_mod_cast h1
    · exact_mod_cast h2

/-- C15 (amended) at the column vector `[3, 4]` over `int16`. -/
theorem C15_Len_witness :
    Matrix.Columns ⟨2, 1, [3, 4]⟩ = 1 ∧ Matrix.sumSquares ⟨2, 1, [3, 4]⟩ = 25 ∧
    Kind.wrap .int16 25 = 25 ∧ ExactDouble 25 ∧ sqrtTrunc 25 = 5 ∧
    Matrix.Len .int16 sqrtTrunc ⟨2, 1, [3, 4]⟩
      = .ok (sqrtTrunc (Matrix.sumSquares ⟨2, 1, [3, 4]⟩)) :=
  have hE : ExactDouble 25 := ⟨25, 0, by decide, by decide⟩
  ⟨by decide, by decide, by decide, hE, by decide,
    ((C15_Len .int16 ⟨2, 1, [3, 4]⟩).2.1 (by decide) (by decide) hE).1⟩

end GoMatrix
